import Mathlib

set_option maxRecDepth 8000

/-!
Verification of the elkoi_py text-extraction pipeline.

This file gives a shallow embedding, over List Char and String, of the
functions of parse_raw_phrases.py, sql2text.py and text2sql.py that the
checked properties concern: the item tokenizer (ReadFileWrapper), the tag
processor (SimplePair), the noun grammar extractor (parse_noun), the item
classifier (parse_item), the paragraph filler (fill_paragraph) and the
scheduling-metadata codec (write_one_flashcard / extract_properties).

Conventions of the embedding:
 - Python strings are List Char (with String wrappers at the API);
   character classes of the regular expressions are modelled over ASCII
   (Python's \w is unicode-aware; the repository's data and every claim
   here only exercise the ASCII behaviour, which coincides).
 - The regular expressions of the source are translated to deterministic
   maximal-munch parsers.  This is faithful because in every pattern the
   character that follows a repeated class is excluded from that class
   (for instance \w+ is always followed by a space, a comma or an equals
   sign, none of which is a word character), so the greedy match with
   backtracking of the re module coincides with maximal munch.
 - Loops whose termination is by shrinking of the worked-on string are
   written with an explicit fuel that is provably sufficient, so that all
   definitions compute by kernel reduction.
 - Exceptions are modelled by Option / Except.
-/

/-! Part A: Python primitives (str.strip, str.split, str.replace, substring
containment) and the character classes of the regular expressions. -/

/-- Whitespace characters of Python's str.strip / str.split / \s (ASCII part). -/
def isPySpace (c : Char) : Bool :=
  c = ' ' || c = '\t' || c = '\n' || c = '\r' || c = '\x0b' || c = '\x0c'

/-- The \w class of the re module, restricted to ASCII. -/
def isWordChar (c : Char) : Bool :=
  c.isAlphanum || c = '_'

/-- Characters allowed inside a tag by SimplePair._apply_tags:
the class \w*:'",;/() - of its tag regexes. -/
def isTagChar (c : Char) : Bool :=
  isWordChar c || c = '*' || c = ':' || c = '\'' || c = '"' || c = ',' ||
    c = ';' || c = '/' || c = '(' || c = ')' || c = ' ' || c = '-'

/-- Characters allowed in the tagless body by SimplePair._apply_tags:
the class \w,;/()'" - of its middle group. -/
def isBodyChar (c : Char) : Bool :=
  isWordChar c || c = ',' || c = ';' || c = '/' || c = '(' || c = ')' ||
    c = '\'' || c = '"' || c = ' ' || c = '-'

/-- Characters allowed in a translation by parse_noun:
the class \w,;()'" - of the last group of its three regexes. -/
def isTransChar (c : Char) : Bool :=
  isWordChar c || c = ',' || c = ';' || c = '(' || c = ')' ||
    c = '\'' || c = '"' || c = ' ' || c = '-'

/-- Characters allowed in a property value by extract_properties:
the class \w\s.\[\]:- of its line regex (with \s restricted to ASCII). -/
def isValChar (c : Char) : Bool :=
  isWordChar c || isPySpace c || c = '.' || c = '[' || c = ']' ||
    c = ':' || c = '-'

/-- Python str.lstrip (no argument): drop leading whitespace. -/
def stripLeftL (s : List Char) : List Char := s.dropWhile isPySpace

/-- Python str.rstrip (no argument): drop trailing whitespace. -/
def stripRightL (s : List Char) : List Char := (s.reverse.dropWhile isPySpace).reverse

/-- Python str.strip (no argument). -/
def stripL (s : List Char) : List Char := stripRightL (stripLeftL s)

/-- Python str.split (no argument): the maximal whitespace-free words, in
order; acc carries the current word reversed. -/
def pyWordsAux : List Char → List Char → List (List Char)
  | acc, [] => if acc.isEmpty then [] else [acc.reverse]
  | acc, c :: s =>
      if isPySpace c then
        if acc.isEmpty then pyWordsAux [] s else acc.reverse :: pyWordsAux [] s
      else pyWordsAux (c :: acc) s

/-- Python str.split (no argument). -/
def pyWords (s : List Char) : List (List Char) := pyWordsAux [] s

/-- Python " ".join(ws). -/
def spaceJoin : List (List Char) → List Char
  | [] => []
  | [w] => w
  | w :: ws => w ++ ' ' :: spaceJoin ws

/-- Python " ".join(s.split()): whitespace normalization, as done at the
start of parse_noun and SimplePair._create_flashcards. -/
def pyNormalize (s : List Char) : List Char := spaceJoin (pyWords s)

/-- Python (pat in s) / s.find(pat) != -1: substring containment. -/
def occursIn (pat : List Char) : List Char → Bool
  | [] => pat.isEmpty
  | c :: s => pat.isPrefixOf (c :: s) || occursIn pat s

/-- Python s.replace(pat, rep) for nonempty pat: replace every
non-overlapping occurrence, scanning left to right, never rescanning the
replacement.  Fuel-indexed; one unit of fuel is spent per consumed
character, so fuel s.length is always sufficient (see replaceAll). -/
def replaceAllF (pat rep : List Char) : Nat → List Char → List Char
  | _, [] => []
  | 0, s => s
  | g+1, c :: s =>
      if pat.isPrefixOf (c :: s) then rep ++ replaceAllF pat rep g ((c :: s).drop pat.length)
      else c :: replaceAllF pat rep g s

/-- Python s.replace(pat, rep).  The sources only ever call replace with a
nonempty pattern (a bracketed tag), so the empty-pattern guard is inert. -/
def replaceAll (s pat rep : List Char) : List Char :=
  if pat.isEmpty then s else replaceAllF pat rep s.length s

/-! Part B: the tag processor SimplePair._apply_tags /
SimplePair._apply_special_tags of parse_raw_phrases.py. -/

/-- The text of a tag with content c, as it appears in the input. -/
def tagStr (c : List Char) : List Char := '<' :: c ++ ['>']

/-- One step of the tag regex (<[\w*:'",;/() -]+>) at the head of s: the
content is the maximal run of tag characters after '<', and must be
nonempty and followed by '>'. -/
def parseTag (s : List Char) : Option (List Char × List Char) :=
  if s.head? = some '<' then
    let run := s.tail.takeWhile isTagChar
    if run.isEmpty then none
    else
      let rest := s.tail.dropWhile isTagChar
      if rest.head? = some '>' then some (run, rest.tail) else none
  else none

/-- The greedy star (tag)* of the full-match regex of _apply_tags: the
maximal sequence of complete tags at the head of s, with the unparsed
remainder.  Each tag consumes at least three characters, so fuel s.length
is always sufficient. -/
def parseTagsF : Nat → List Char → List (List Char) × List Char
  | 0, s => ([], s)
  | g+1, s =>
      match parseTag s with
      | none => ([], s)
      | some (c, rest) =>
          let p := parseTagsF g rest
          (c :: p.1, p.2)

/-- The concatenated source text of a run of tags; equals the slice of the
original text that the (tag)* group matched. -/
def renderTags : List (List Char) → List Char
  | [] => []
  | c :: cs => tagStr c ++ renderTags cs

/-- The fullmatch of _apply_tags against (tag)* body (tag)*: front tag run
(group before the body, as source text), body (group 2) and back tag run.
Returns none when the text does not fully match, in which case the source
raises ItemFormatError. -/
def parseTagText (s : List Char) : Option (List Char × List Char × List Char) :=
  let p := parseTagsF s.length s
  let body := p.2.takeWhile isBodyChar
  if body.isEmpty then none
  else
    let r2 := p.2.dropWhile isBodyChar
    let q := parseTagsF r2.length r2
    if q.2.isEmpty then some (renderTags p.1, body, renderTags q.1) else none

/-- Leftmost match of the tag regex in s, as found by re.search: the scan
advances one position at a time and yields the first position where a
complete tag starts. -/
def findTag : List Char → Option (List Char)
  | [] => none
  | c :: s =>
      match parseTag (c :: s) with
      | some p => some p.1
      | none => findTag s

/-- The final while loop of _apply_tags: repeatedly find the leftmost
remaining tag and strip the brackets from all its occurrences.  Each round
shortens the text by at least two characters, so fuel s.length + 1 is
always sufficient (see unwrapTags). -/
def unwrapF : Nat → List Char → List Char
  | 0, s => s
  | g+1, s =>
      match findTag s with
      | none => s
      | some c => unwrapF g (replaceAll s (tagStr c) c)

/-- The final while loop of _apply_tags, run to completion. -/
def unwrapTags (s : List Char) : List Char := unwrapF (s.length + 1) s

def starTagL : List Char := ['<', '*', '>']

def slashTagL : List Char := ['<', '/', '>']

def engTagL : List Char := ['<', 'e', 'n', 'g', '>']

def engMark : List Char := "Translate to English: ".data

/-- SimplePair._apply_special_tags, split into its two results: the front
tag run after removal of the special tags, and the rewritten body.  The
source checks <*>, then </>, then <eng>, each time searching the current
front_tags (so a special tag among the back tags has no special effect)
and rewriting tagless_text. -/
def specialPair (front body : List Char) : List Char × List Char :=
  let p1 := if occursIn starTagL front
            then (replaceAll front starTagL [], '*' :: body ++ ['*'])
            else (front, body)
  let p2 := if occursIn slashTagL p1.1
            then (replaceAll p1.1 slashTagL [], '/' :: p1.2 ++ ['/'])
            else p1
  if occursIn engTagL p2.1
  then (replaceAll p2.1 engTagL [], engMark ++ p2.2)
  else p2

/-- SimplePair._apply_special_tags: returns front_tags + tagless_text +
back_tags after the special-tag rewrites. -/
def applySpecialTags (front body back : List Char) : List Char :=
  (specialPair front body).1 ++ (specialPair front body).2 ++ back

/-- SimplePair._apply_tags: parse the tag structure, apply the special
tags, unwrap the remaining tags; returns (question_text, answer_text), or
none where the source raises ItemFormatError. -/
def applyTagsL (text : List Char) : Option (List Char × List Char) :=
  match parseTagText text with
  | none => none
  | some (front, body, back) =>
      some (unwrapTags (applySpecialTags front body back), body)

/-- SimplePair._apply_tags at the String level. -/
def applyTags (s : String) : Option (String × String) :=
  (applyTagsL s.data).map fun p => (String.mk p.1, String.mk p.2)

example : applyTags "<*></>x" = some ("/*x*/", "x") := by decide

example : applyTags "x<eng>" = some ("xeng", "x") := by decide

example : applyTags "<eng>x" = some ("Translate to English: x", "x") := by decide

example : applyTags "<adj>nice<pl>" = some ("adjnicepl", "nice") := by decide

example : applyTags "a<b" = none := by decide

/-! Part C: fill_paragraph, parse_noun, parse_item and the flashcard
construction of parse_raw_phrases.py. -/

/-- The word loop of fill_paragraph: line is the line being assembled,
lines the completed lines (each with its newline), walking the words. -/
def fillLoop (maxw : Nat) : List Char → List (List Char) → List (List Char) → List Char × List (List Char)
  | line, lines, [] => (line, lines)
  | line, lines, w :: ws =>
      if line.length ≠ 0 then
        if line.length + 1 + w.length > maxw then fillLoop maxw w (lines ++ [line ++ ['\n']]) ws
        else fillLoop maxw (line ++ ' ' :: w) lines ws
      else fillLoop maxw w lines ws

/-- Python "".join for lists of character lists. -/
def flattenL : List (List Char) → List Char
  | [] => []
  | l :: ls => l ++ flattenL ls

/-- fill_paragraph of parse_raw_phrases.py: split into words, assemble
greedy lines; if no line overflowed return the assembled line, otherwise
return the joined completed lines, stripped.  (Note the source never
appends the final partial line to lines.) -/
def fill_paragraphL (p : List Char) (maxw : Nat) : List Char :=
  let r := fillLoop maxw [] [] (pyWords p)
  if r.2.isEmpty then r.1 else stripL (flattenL r.2)

/-- fill_paragraph at the String level, at its default width 79. -/
def fill_paragraph (s : String) : String := String.mk (fill_paragraphL s.data 79)

/-- The alternation ([Dd]er|[Dd]ie|[Dd]as) at the head of s. -/
def parseArticle : List Char → Option (List Char × List Char)
  | c1 :: c2 :: c3 :: rest =>
      if (c1 = 'D' || c1 = 'd') &&
         ((c2 = 'e' && c3 = 'r') || (c2 = 'i' && c3 = 'e') || (c2 = 'a' && c3 = 's'))
      then some ([c1, c2, c3], rest) else none
  | _ => none

/-- The first noun regex of parse_noun (explicit plural):
fullmatch of "- (article) (\w+), ([Dd]ie \w+) = (translation)".
Returns (article, word, group 3, translation). -/
def matchForm1 (s : List Char) : Option (List Char × List Char × List Char × List Char) :=
  match s with
  | '-' :: ' ' :: r =>
    match parseArticle r with
    | none => none
    | some (art, r1) =>
      match r1 with
      | ' ' :: r2 =>
        let word := r2.takeWhile isWordChar
        if word.isEmpty then none
        else
          match r2.dropWhile isWordChar with
          | ',' :: ' ' :: d :: 'i' :: 'e' :: ' ' :: r4 =>
            if d = 'D' || d = 'd' then
              let w2 := r4.takeWhile isWordChar
              if w2.isEmpty then none
              else
                match r4.dropWhile isWordChar with
                | ' ' :: '=' :: ' ' :: r5 =>
                    if !r5.isEmpty && r5.all isTransChar
                    then some (art, word, d :: 'i' :: 'e' :: ' ' :: w2, r5)
                    else none
                | _ => none
            else none
          | _ => none
      | _ => none
  | _ => none

/-- The second noun regex of parse_noun (abbreviated plural ending):
fullmatch of "- (article) (\w+), (-?\w*) = (translation)".
Returns (article, word, ending, translation). -/
def matchForm2 (s : List Char) : Option (List Char × List Char × List Char × List Char) :=
  if s.head? = some '-' then
    if s.tail.head? = some ' ' then
      match parseArticle s.tail.tail with
      | none => none
      | some (art, r1) =>
          if r1.head? = some ' ' then
            let r2 := r1.tail
            let word := r2.takeWhile isWordChar
            if word.isEmpty then none
            else
              let r3a := r2.dropWhile isWordChar
              if r3a.head? = some ',' then
                if r3a.tail.head? = some ' ' then
                  let r3 := r3a.tail.tail
                  let dashed := r3.head? = some '-'
                  let r3b := if dashed then r3.tail else r3
                  let ending := (if dashed then ['-'] else []) ++ r3b.takeWhile isWordChar
                  let r4 := r3b.dropWhile isWordChar
                  if r4.head? = some ' ' then
                    if r4.tail.head? = some '=' then
                      if r4.tail.tail.head? = some ' ' then
                        let r5 := r4.tail.tail.tail
                        if !r5.isEmpty && r5.all isTransChar
                        then some (art, word, ending, r5)
                        else none
                      else none
                    else none
                  else none
                else none
              else none
          else none
    else none
  else none

/-- The third noun regex of parse_noun (no plural): fullmatch of
"- (article) (\w+) = (translation)".  Returns (article, word, translation). -/
def matchForm3 (s : List Char) : Option (List Char × List Char × List Char) :=
  match s with
  | '-' :: ' ' :: r =>
    match parseArticle r with
    | none => none
    | some (art, r1) =>
      match r1 with
      | ' ' :: r2 =>
        let word := r2.takeWhile isWordChar
        if word.isEmpty then none
        else
          match r2.dropWhile isWordChar with
          | ' ' :: '=' :: ' ' :: r5 =>
              if !r5.isEmpty && r5.all isTransChar
              then some (art, word, r5)
              else none
          | _ => none
      | _ => none
  | _ => none

/-- The dictionary built by parse_noun (plural is absent for form 3). -/
structure NounR where
  singular : List Char
  plural : Option (List Char)
  translation : List Char
deriving DecidableEq, Repr

/-- parse_noun of parse_raw_phrases.py: normalize whitespace, then try the
three regexes in order; none models the ItemFormatError raise.  In the
second form the source computes the plural from singular[4:] (the article
is always three characters plus the following space). -/
def parse_nounL (item : List Char) : Option NounR :=
  let it := pyNormalize item
  match matchForm1 it with
  | some (art, word, grp3, tr) => some ⟨art ++ ' ' :: word, some grp3, tr⟩
  | none =>
    match matchForm2 it with
    | some (art, word, ending, tr) =>
        let singular := art ++ ' ' :: word
        if ending = ['-'] then
          some ⟨singular, some ("die ".data ++ singular.drop 4), tr⟩
        else
          let suffix := if ending.head? = some '-' then ending.tail else ending
          some ⟨singular, some ("die ".data ++ singular.drop 4 ++ suffix), tr⟩
    | none =>
      match matchForm3 it with
      | some (art, word, tr) => some ⟨art ++ ' ' :: word, none, tr⟩
      | none => none

/-- Python s.ljust(w): pad on the right with spaces up to width w. -/
def ljustL (s : List Char) (w : Nat) : List Char := s ++ List.replicate (w - s.length) ' '

/-- ParseResult._add_card: the four lines of one question/answer card
(front heading padded to column 30 and tagged :drill:, question, back
heading, answer); the headers are always the defaults q and a. -/
def addCard (q a : List Char) : List (List Char) :=
  [ljustL ("*** q".data) 30 ++ ":drill:\n".data, q ++ ['\n'], "**** a\n".data, a ++ ['\n']]

/-- ParseResult._set_header: the root heading line. -/
def setHeader (h : List Char) : List (List Char) := ["** ".data ++ h ++ ['\n']]

/-- Python s.partition(t)[2] for a one-character separator: the part after
the first occurrence, empty when absent. -/
def afterFirst (t : Char) : List Char → List Char
  | [] => []
  | c :: s => if c = t then s else afterFirst t s

/-- OldNoun._create_flashcards: gender card, then plural/singular cards
when a plural is present. -/
def oldNounCards (n : NounR) : List (List Char) :=
  let hdr := setHeader n.singular
  let wo := afterFirst ' ' n.singular
  let c1 := addCard ("Rod od *".data ++ wo ++ ['*']) n.singular
  match n.plural with
  | none => hdr ++ c1
  | some pl =>
      hdr ++ c1 ++ addCard ("množina od *".data ++ n.singular ++ ['*']) pl
          ++ addCard ("jednina od *".data ++ pl ++ ['*']) n.singular

/-- NewNoun._create_flashcards: translation/headword cards, then
plural/singular cards when a plural is present. -/
def newNounCards (n : NounR) : List (List Char) :=
  let hdr := setHeader n.singular
  let c1 := addCard n.translation n.singular
  let c2 := addCard ('*' :: n.singular ++ ['*']) n.translation
  match n.plural with
  | none => hdr ++ c1 ++ c2
  | some pl =>
      hdr ++ c1 ++ c2 ++ addCard ("množina od *".data ++ n.singular ++ ['*']) pl
          ++ addCard ("jednina od *".data ++ pl ++ ['*']) n.singular

/-- The outcome of SimplePair._create_flashcards: the two question/answer
forms returned by _apply_tags for the german side and the translation side
(before fill_paragraph is applied), and the final flashcard lines (built
from the filled forms, as in the source). -/
structure SPData where
  germanQ : List Char
  germanA : List Char
  transQ : List Char
  transA : List Char
  lines : List (List Char)
deriving DecidableEq, Repr

/-- Python it.partition for the one-character separator: some (before,
after) at the first occurrence, none when the separator is absent. -/
def splitAtFirstEq : List Char → Option (List Char × List Char)
  | [] => none
  | c :: s => if c = '=' then some ([], s) else (splitAtFirstEq s).map fun p => (c :: p.1, p.2)

/-- SimplePair._create_flashcards: normalize, split at the first equals
sign (missing or final equals raises ItemFormatError, modelled by none),
strip the sides, run _apply_tags on each (none where it raises), fill all
four texts and assemble header plus two cards. -/
def simplePairL (item : List Char) : Option SPData :=
  let it := pyNormalize item
  match splitAtFirstEq it with
  | none => none
  | some (pre, post) =>
    if post.isEmpty then none
    else
      let german := stripL (pre.drop 2)
      let translation := stripL post
      match applyTagsL german, applyTagsL translation with
      | some (gq, ga), some (tq, ta) =>
          let gqf := fill_paragraphL gq 79
          let gaf := fill_paragraphL ga 79
          let tqf := fill_paragraphL tq 79
          let taf := fill_paragraphL ta 79
          some ⟨gq, ga, tq, ta, setHeader gaf ++ addCard gqf taf ++ addCard tqf gaf⟩
      | _, _ => none

/-- The classification made by parse_item. -/
inductive PIRes where
  | oldN (cards : List (List Char))
  | newN (cards : List (List Char))
  | pairR (d : SPData)
deriving DecidableEq, Repr

/-- parse_item of parse_raw_phrases.py: for an item with the old-entry
marker "- (o) ", try parse_noun on "-" + item[5:], catching any failure;
then try parse_noun on the whole, original item; finally fall back to
SimplePair on the original item, whose ItemFormatError (none here)
propagates to the caller. -/
def parse_itemL (item : List Char) : Option PIRes :=
  let old := if "- (o) ".data.isPrefixOf item then parse_nounL ('-' :: item.drop 5) else none
  match old with
  | some n => some (.oldN (oldNounCards n))
  | none =>
    match parse_nounL item with
    | some n => some (.newN (newNounCards n))
    | none => (simplePairL item).map .pairR

example : parse_nounL "- der Tisch, -e = the table".data =
    some ⟨"der Tisch".data, some "die Tische".data, "the table".data⟩ := by decide

example : parse_nounL "- der Tisch, - = table".data =
    some ⟨"der Tisch".data, some "die Tisch".data, "table".data⟩ := by decide

example : parse_nounL "- das Auto = car".data = some ⟨"das Auto".data, none, "car".data⟩ := by
  decide

example : parse_nounL "- der Tisch, die Tische = table".data =
    some ⟨"der Tisch".data, some "die Tische".data, "table".data⟩ := by decide

example : parse_nounL "- (o) der Tisch, -e = table".data = none := by decide

example : fill_paragraphL (List.replicate 40 'a' ++ ' ' :: List.replicate 40 'b') 79 =
    List.replicate 40 'a' := by decide

example : fill_paragraphL "  ein  Haus ".data 79 = "ein Haus".data := by decide

/-! Part D: the item tokenizer ReadFileWrapper of parse_raw_phrases.py. -/

/-- Python line.startswith(p). -/
def strStarts (p s : String) : Bool := p.data.isPrefixOf s.data

/-- Python line.isspace(): nonempty and all whitespace. -/
def pyIsSpaceStr (s : String) : Bool := !s.data.isEmpty && s.data.all isPySpace

/-- Python "".join(lines). -/
def joinStr : List String → String
  | [] => ""
  | l :: ls => l ++ joinStr ls

/-- The result of iterating ReadFileWrapper to exhaustion: either the list
of items, or the TypeError that "".join raises when _wnr_current_item is
reached with _current_item_first_line still None. -/
inductive TokRes where
  | tErr
  | ok (items : List String)
deriving DecidableEq, Repr

/-- The iteration of ReadFileWrapper.__next__ over the whole document,
fused into one pass: first is _current_item_first_line, acc is
_current_item, and the list argument is the unread lines.  A "- " line
with a buffered first line makes _wnr_current_item return an item (and the
following call continues with the new first line and a fresh deque); "  "
lines are buffered; "#" lines and whitespace lines are skipped; end of
input or any other line flushes the buffered item once (TypeError when no
first line was ever seen) after which the iterator only raises
StopIteration. -/
def tokLoop : Option String → List String → List String → TokRes
  | first, acc, [] =>
      (match first with
       | none => .tErr
       | some f => .ok [f ++ joinStr acc])
  | first, acc, l :: ls =>
      if strStarts "- " l then
        match first with
        | none => tokLoop (some l) acc ls
        | some f =>
            match tokLoop (some l) [] ls with
            | .tErr => .tErr
            | .ok items => .ok ((f ++ joinStr acc) :: items)
      else if strStarts "  " l then tokLoop first (acc ++ [l]) ls
      else if strStarts "#" l then tokLoop first acc ls
      else if pyIsSpaceStr l then tokLoop first acc ls
      else
        match first with
        | none => .tErr
        | some f => .ok [f ++ joinStr acc]

/-- Iterating a fresh ReadFileWrapper over the document's lines. -/
def tokenizeDoc (doc : List String) : TokRes := tokLoop none [] doc

example : tokenizeDoc ["- a\n", "  cont\n", "- b\n"] = .ok ["- a\n  cont\n", "- b\n"] := by
  decide

example : tokenizeDoc [] = .tErr := by decide

example : tokenizeDoc ["- a\n", "* x\n", "- b\n"] = .ok ["- a\n"] := by decide

example : tokenizeDoc ["# c\n", "- a\n"] = .ok ["- a\n"] := by decide

/-! Part E: the scheduling-metadata codec: write_one_flashcard of
sql2text.py (serialization) and extract_properties of text2sql.py
(parsing), together with models of Python's str/int/float conversions. -/

def digitChar (n : Nat) : Char := Char.ofNat (48 + n)

def digitVal (c : Char) : Nat := c.toNat - 48

def isDigitChar (c : Char) : Bool := c.isDigit

/-- Decimal digits of n, most significant first; fuel-indexed (dividing by
ten each step, so fuel n + 1 is always sufficient). -/
def natToDigitsF : Nat → Nat → List Char
  | 0, _ => []
  | g+1, n => if n < 10 then [digitChar n] else natToDigitsF g (n / 10) ++ [digitChar (n % 10)]

/-- Python str(n) for a natural number. -/
def natReprL (n : Nat) : List Char := natToDigitsF (n + 1) n

/-- Python str(i) for an integer: a minus sign followed by the digits when
negative. -/
def intReprL (i : Int) : List Char := if i < 0 then '-' :: natReprL (-i).toNat else natReprL i.toNat

/-- Value of a digit string, most significant first. -/
def digitsValAux : Nat → List Char → Nat
  | acc, [] => acc
  | acc, c :: s => digitsValAux (10 * acc + digitVal c) s

def digitsVal (s : List Char) : Nat := digitsValAux 0 s

/-- Python int(s) on an already stripped string of plain digits (the model
omits the plus sign and underscore separators, which no value written by
the serializer contains); none models the ValueError raise. -/
def parseDigits (s : List Char) : Option Nat :=
  if !s.isEmpty && s.all isDigitChar then some (digitsVal s) else none

/-- Python int(s) on an already stripped string, with an optional minus sign. -/
def parseIntL (s : List Char) : Option Int :=
  if s.head? = some '-' then (parseDigits s.tail).map (fun (n : Nat) => -(n : Int))
  else (parseDigits s).map (fun (n : Nat) => (n : Int))

/-- Model of a Python float as the exact decimal literal that str prints
for it: sign, integer part, and the fractional digit string.  CPython
guarantees float(str(x)) == x, and for the plain decimal forms modelled
here str and float are mutually inverse digit for digit, so the
representation round trip below models the value round trip.  (Binary
floating point itself, and the exponent forms str uses for extreme
magnitudes, stay outside the embedding.) -/
structure PyFloat where
  neg : Bool
  ip : Nat
  frac : List Char
deriving DecidableEq, Repr

/-- Python str(x) for a float in plain decimal form. -/
def floatReprL (f : PyFloat) : List Char :=
  (if f.neg then ['-'] else []) ++ natReprL f.ip ++ '.' :: f.frac

/-- Python float(s) for an unsigned plain decimal literal. -/
def parsePosFloat (s : List Char) : Option PyFloat :=
  let ip := s.takeWhile isDigitChar
  if ip.isEmpty then none
  else
    let rest := s.dropWhile isDigitChar
    if rest.head? = some '.' then
      let fr := rest.tail
      if !fr.isEmpty && fr.all isDigitChar then some ⟨false, digitsVal ip, fr⟩ else none
    else none

/-- Python float(s) on an already stripped plain decimal literal; none
models the ValueError raise. -/
def parseFloatL (s : List Char) : Option PyFloat :=
  if s.head? = some '-' then (parsePosFloat s.tail).map fun f => ⟨true, f.ip, f.frac⟩
  else parsePosFloat s

/-- The frac field is a genuine digit string (every value produced by
floatReprL in the serializer satisfies this by construction of its
witnesses). -/
def FracOK (x : PyFloat) : Prop := x.frac ≠ [] ∧ x.frac.all isDigitChar = true

/-- The ten scheduling fields, in the order of the Properties namedtuple
of shared.py.  String fields stay strings; the drill statistics carry the
int / float types the source converts them to. -/
structure Properties where
  SCHEDULED : String
  ID : String
  DRILL_LAST_INTERVAL : PyFloat
  DRILL_REPEATS_SINCE_FAIL : Int
  DRILL_TOTAL_REPEATS : Int
  DRILL_FAILURE_COUNT : Int
  DRILL_AVERAGE_QUALITY : PyFloat
  DRILL_EASE : PyFloat
  DRILL_LAST_QUALITY : Int
  DRILL_LAST_REVIEWED : String
deriving DecidableEq, Repr

/-- The SCHEDULED line and the :PROPERTIES: ... :END: block exactly as
write_one_flashcard writes them (its lines 17 to 28; the drill heading
before them and the front/back text after them are not part of the
block). -/
def encodeProps (p : Properties) : List String :=
  [ "    SCHEDULED: " ++ p.SCHEDULED ++ "\n",
    "    :PROPERTIES:\n",
    "    :ID: " ++ p.ID ++ "\n",
    "    :DRILL_LAST_INTERVAL: " ++ String.mk (floatReprL p.DRILL_LAST_INTERVAL) ++ "\n",
    "    :DRILL_REPEATS_SINCE_FAIL: " ++ String.mk (intReprL p.DRILL_REPEATS_SINCE_FAIL) ++ "\n",
    "    :DRILL_TOTAL_REPEATS: " ++ String.mk (intReprL p.DRILL_TOTAL_REPEATS) ++ "\n",
    "    :DRILL_FAILURE_COUNT: " ++ String.mk (intReprL p.DRILL_FAILURE_COUNT) ++ "\n",
    "    :DRILL_AVERAGE_QUALITY: " ++ String.mk (floatReprL p.DRILL_AVERAGE_QUALITY) ++ "\n",
    "    :DRILL_EASE: " ++ String.mk (floatReprL p.DRILL_EASE) ++ "\n",
    "    :DRILL_LAST_QUALITY: " ++ String.mk (intReprL p.DRILL_LAST_QUALITY) ++ "\n",
    "    :DRILL_LAST_REVIEWED: " ++ p.DRILL_LAST_REVIEWED ++ "\n",
    "    :END:\n" ]

/-- The local variables of extract_properties, each possibly still
undefined (a NameError at :END: when one is). -/
structure PState where
  sched : Option (List Char) := none
  idv : Option (List Char) := none
  dli : Option PyFloat := none
  drsf : Option Int := none
  dtr : Option Int := none
  dfc : Option Int := none
  daq : Option PyFloat := none
  de : Option PyFloat := none
  dlq : Option Int := none
  dlr : Option (List Char) := none
deriving DecidableEq, Repr

/-- The failure modes of extract_properties: OrgEOFError from readline at
end of input; OrgLineFormatError for a bad SCHEDULED line, a line that is
no property, an unknown property name, or a missing property at :END:
(the NameError path); and the ValueError that int()/float() raise on a
malformed number, which nothing in the source catches. -/
inductive PErr where
  | eofErr
  | lineFormat
  | missingProp
  | unknownProp
  | valueErr
deriving DecidableEq, Repr

/-- The line regex :(\w+):([\w\s.\[\]:-]+) of extract_properties, applied
with re.match: anchored at the start only, the value group being the
maximal run (anything after it is ignored). -/
def matchPropLine (line : List Char) : Option (List Char × List Char) :=
  if line.head? = some ':' then
    let r := line.tail
    let nm := r.takeWhile isWordChar
    if nm.isEmpty then none
    else
      let rest := r.dropWhile isWordChar
      if rest.head? = some ':' then
        let v := rest.tail.takeWhile isValChar
        if v.isEmpty then none else some (nm, v)
      else none
  else none

/-- The return at :END:: build the Properties tuple, or fail when a field
was never assigned. -/
def finalizeP (st : PState) : Except PErr Properties :=
  match st.sched, st.idv, st.dli, st.drsf, st.dtr, st.dfc, st.daq, st.de, st.dlq, st.dlr with
  | some s, some i, some a, some b, some c, some d, some e, some f, some g, some h =>
      .ok ⟨String.mk s, String.mk i, a, b, c, d, e, f, g, String.mk h⟩
  | _, _, _, _, _, _, _, _, _, _ => .error .missingProp

/-- The outcome of one pass through the loop body of extract_properties:
continue with an updated state, or leave the loop with a result. -/
inductive StepRes where
  | cont (st : PState)
  | stop (r : Except PErr Properties)
deriving Repr

/-- The if/elif dispatch of the loop body of extract_properties on a
matched property name, the value already stripped. -/
def extractProp (st : PState) (nm v : List Char) : StepRes :=
  if nm = "ID".data then .cont { st with idv := some v }
  else if nm = "DRILL_LAST_INTERVAL".data then
    match parseFloatL v with
    | some x => .cont { st with dli := some x }
    | none => .stop (.error .valueErr)
  else if nm = "DRILL_REPEATS_SINCE_FAIL".data then
    match parseIntL v with
    | some n => .cont { st with drsf := some n }
    | none => .stop (.error .valueErr)
  else if nm = "DRILL_TOTAL_REPEATS".data then
    match parseIntL v with
    | some n => .cont { st with dtr := some n }
    | none => .stop (.error .valueErr)
  else if nm = "DRILL_FAILURE_COUNT".data then
    match parseIntL v with
    | some n => .cont { st with dfc := some n }
    | none => .stop (.error .valueErr)
  else if nm = "DRILL_AVERAGE_QUALITY".data then
    match parseFloatL v with
    | some x => .cont { st with daq := some x }
    | none => .stop (.error .valueErr)
  else if nm = "DRILL_EASE".data then
    match parseFloatL v with
    | some x => .cont { st with de := some x }
    | none => .stop (.error .valueErr)
  else if nm = "DRILL_LAST_QUALITY".data then
    match parseIntL v with
    | some n => .cont { st with dlq := some n }
    | none => .stop (.error .valueErr)
  else if nm = "DRILL_LAST_REVIEWED".data then
    .cont { st with dlr := some v }
  else .stop (.error .unknownProp)

/-- The loop body of extract_properties for one raw line: strip the line;
skip :PROPERTIES: and blank lines; return at :END:; the SCHEDULED branch
takes everything after "SCHEDULED:" (error when empty before stripping)
and stores it stripped; otherwise the line regex must match and the
value, stripped, is assigned to the variable selected by the if/elif
chain, converted per field. -/
def extractLine (st : PState) (l : List Char) : StepRes :=
  let line := stripL l
  if line = ":PROPERTIES:".data then .cont st
  else if line = ":END:".data then .stop (finalizeP st)
  else if line.isEmpty then .cont st
  else if "SCHEDULED:".data.isPrefixOf line then
    let sched := line.drop 10
    if sched.isEmpty then .stop (.error .lineFormat)
    else .cont { st with sched := some (stripL sched) }
  else
    match matchPropLine line with
    | none => .stop (.error .lineFormat)
    | some (nm, v0) => extractProp st nm (stripL v0)

/-- The while loop of extract_properties over the remaining lines, one
loop-body pass per line; running out of lines models the OrgEOFError that
the FileWrapper raises at end of input. -/
def extractGo : PState → List (List Char) → Except PErr Properties
  | _, [] => .error .eofErr
  | st, l :: ls =>
      match extractLine st l with
      | .cont st2 => extractGo st2 ls
      | .stop r => r

/-- extract_properties applied to a list of raw lines (the FileWrapper
delivers them one readline at a time; the loop stops at :END: without
reading further). -/
def decodeProps (lines : List String) : Except PErr Properties :=
  extractGo {} (lines.map String.data)

/-- One property-block line keyed by field, used to state the
last-occurrence property: rendered exactly like the corresponding
write_one_flashcard line. -/
inductive PropEv where
  | evSched (v : List Char)
  | evID (v : List Char)
  | evDLI (x : PyFloat)
  | evDRSF (n : Int)
  | evDTR (n : Int)
  | evDFC (n : Int)
  | evDAQ (x : PyFloat)
  | evDE (x : PyFloat)
  | evDLQ (n : Int)
  | evDLR (v : List Char)
deriving DecidableEq, Repr

def renderEv : PropEv → List Char
  | .evSched v => "    SCHEDULED: ".data ++ v ++ ['\n']
  | .evID v => "    :ID: ".data ++ v ++ ['\n']
  | .evDLI x => "    :DRILL_LAST_INTERVAL: ".data ++ floatReprL x ++ ['\n']
  | .evDRSF n => "    :DRILL_REPEATS_SINCE_FAIL: ".data ++ intReprL n ++ ['\n']
  | .evDTR n => "    :DRILL_TOTAL_REPEATS: ".data ++ intReprL n ++ ['\n']
  | .evDFC n => "    :DRILL_FAILURE_COUNT: ".data ++ intReprL n ++ ['\n']
  | .evDAQ x => "    :DRILL_AVERAGE_QUALITY: ".data ++ floatReprL x ++ ['\n']
  | .evDE x => "    :DRILL_EASE: ".data ++ floatReprL x ++ ['\n']
  | .evDLQ n => "    :DRILL_LAST_QUALITY: ".data ++ intReprL n ++ ['\n']
  | .evDLR v => "    :DRILL_LAST_REVIEWED: ".data ++ v ++ ['\n']

/-- The assignment the loop body of extract_properties performs for the
line of one event. -/
def applyEv : PState → PropEv → PState
  | st, .evSched v => { st with sched := some v }
  | st, .evID v => { st with idv := some v }
  | st, .evDLI x => { st with dli := some x }
  | st, .evDRSF n => { st with drsf := some n }
  | st, .evDTR n => { st with dtr := some n }
  | st, .evDFC n => { st with dfc := some n }
  | st, .evDAQ x => { st with daq := some x }
  | st, .evDE x => { st with de := some x }
  | st, .evDLQ n => { st with dlq := some n }
  | st, .evDLR v => { st with dlr := some v }

/-- A string value survives the write/strip/regex/strip path unchanged:
nonempty, stripping-invariant, within the value character class, and
newline-free (a newline inside a value would split the written line). -/
def ValidStrVal (v : List Char) : Prop :=
  v ≠ [] ∧ stripL v = v ∧ ∀ c ∈ v, isValChar c = true ∧ c ≠ '\n'

/-- A SCHEDULED value survives the write/strip/partition/strip path
unchanged: nonempty, stripping-invariant and newline-free (its characters
are otherwise unconstrained; the source takes the raw remainder of the
line). -/
def ValidSchedVal (v : List Char) : Prop :=
  v ≠ [] ∧ stripL v = v ∧ ∀ c ∈ v, c ≠ '\n'

def validEv : PropEv → Prop
  | .evSched v => ValidSchedVal v
  | .evID v => ValidStrVal v
  | .evDLR v => ValidStrVal v
  | .evDLI x => FracOK x
  | .evDAQ x => FracOK x
  | .evDE x => FracOK x
  | _ => True

/-- The last value among evs for the field selected by f. -/
def lastVal (f : PropEv → Option α) (evs : List PropEv) : Option α :=
  (evs.filterMap f).getLast?

def getSched : PropEv → Option (List Char)
  | .evSched v => some v
  | _ => none

def getID : PropEv → Option (List Char)
  | .evID v => some v
  | _ => none

def getDLI : PropEv → Option PyFloat
  | .evDLI x => some x
  | _ => none

def getDRSF : PropEv → Option Int
  | .evDRSF n => some n
  | _ => none

def getDTR : PropEv → Option Int
  | .evDTR n => some n
  | _ => none

def getDFC : PropEv → Option Int
  | .evDFC n => some n
  | _ => none

def getDAQ : PropEv → Option PyFloat
  | .evDAQ x => some x
  | _ => none

def getDE : PropEv → Option PyFloat
  | .evDE x => some x
  | _ => none

def getDLQ : PropEv → Option Int
  | .evDLQ n => some n
  | _ => none

def getDLR : PropEv → Option (List Char)
  | .evDLR v => some v
  | _ => none

example :
    decodeProps (encodeProps ⟨"<2024-01-01 Mon>", "abc-123", ⟨false, 7, ['5']⟩, 3, 10, 2,
        ⟨false, 4, ['2', '5']⟩, ⟨false, 2, ['8']⟩, 5, "[2024-01-01 Mon 10:00]"⟩) =
    .ok ⟨"<2024-01-01 Mon>", "abc-123", ⟨false, 7, ['5']⟩, 3, 10, 2,
        ⟨false, 4, ['2', '5']⟩, ⟨false, 2, ['8']⟩, 5, "[2024-01-01 Mon 10:00]"⟩ := by
  rfl

example :
    decodeProps (encodeProps ⟨"<2024-01-01 Mon>", " x", ⟨false, 1, ['0']⟩, 3, 10, 2,
        ⟨false, 4, ['0']⟩, ⟨false, 2, ['5']⟩, 5, "sometime"⟩) =
    .ok ⟨"<2024-01-01 Mon>", "x", ⟨false, 1, ['0']⟩, 3, 10, 2,
        ⟨false, 4, ['0']⟩, ⟨false, 2, ['5']⟩, 5, "sometime"⟩ := by
  rfl

example : parseIntL (intReprL (-37)) = some (-37) := by rfl

example : parseFloatL (floatReprL ⟨true, 0, ['0', '5']⟩) = some ⟨true, 0, ['0', '5']⟩ := by rfl

/-! Part F: auxiliary notions used to state and prove the properties: a
segment view of tagged text (sequences of well-formed tags and
bracket-free characters), line classification for the tokenizer, and the
body rewriting of the special tags expressed over the original front run. -/

instance exceptDecEq {ε α : Type} [DecidableEq ε] [DecidableEq α] : DecidableEq (Except ε α)
  | .ok a, .ok b =>
      if h : a = b then .isTrue (by rw [h]) else .isFalse (by intro hc; cases hc; exact h rfl)
  | .ok _, .error _ => .isFalse (by intro hc; cases hc)
  | .error _, .ok _ => .isFalse (by intro hc; cases hc)
  | .error a, .error b =>
      if h : a = b then .isTrue (by rw [h]) else .isFalse (by intro hc; cases hc; exact h rfl)

/-- A segment of a question text: a single character or a whole tag. -/
inductive Seg where
  | chr (a : Char)
  | tag (c : List Char)
deriving DecidableEq, Repr

/-- The source text of one segment. -/
def segRender : Seg → List Char
  | .chr a => [a]
  | .tag c => tagStr c

/-- The source text of a segment sequence. -/
def render : List Seg → List Char
  | [] => []
  | sg :: t => segRender sg ++ render t

/-- The text of one segment after bracket stripping. -/
def segRaw : Seg → List Char
  | .chr a => [a]
  | .tag c => c

/-- The text of a segment sequence after bracket stripping. -/
def rawRender : List Seg → List Char
  | [] => []
  | sg :: t => segRaw sg ++ rawRender t

def tagCount : List Seg → Nat
  | [] => 0
  | .chr _ :: t => tagCount t
  | .tag _ :: t => tagCount t + 1

/-- Replace every tag with content c by the segment sequence rep. -/
def convSeg (c : List Char) (rep : List Seg) : Seg → List Seg
  | .chr a => [.chr a]
  | .tag d => if d = c then rep else [.tag d]

def convAll (c : List Char) (rep : List Seg) : List Seg → List Seg
  | [] => []
  | sg :: t => convSeg c rep sg ++ convAll c rep t

/-- A bracket-free string as a segment sequence. -/
def chrSegs (s : List Char) : List Seg := s.map Seg.chr

/-- A run of tags as a segment sequence. -/
def tagSegs (cs : List (List Char)) : List Seg := cs.map Seg.tag

/-- Well-formedness: loose characters carry no brackets; tag contents are
nonempty runs of tag characters. -/
def WfSeg : Seg → Prop
  | .chr a => a ≠ '<' ∧ a ≠ '>'
  | .tag c => c ≠ [] ∧ ∀ a ∈ c, isTagChar a = true

def WfSegs (segs : List Seg) : Prop := ∀ sg ∈ segs, WfSeg sg

/-- A string without angle brackets. -/
def NoBrk (s : List Char) : Prop := ∀ c ∈ s, c ≠ '<' ∧ c ≠ '>'

/-- Well-formedness of the contents of a tag run. -/
def TagsWF (cs : List (List Char)) : Prop :=
  ∀ c ∈ cs, c ≠ [] ∧ ∀ a ∈ c, isTagChar a = true

/-- The body produced by _apply_special_tags, expressed over the original
front run (removing one special tag never creates or destroys another, so
the three membership tests may all be read on the original front run; this
is proved below, not assumed). -/
def finalBody (f b : List Char) : List Char :=
  let b1 := if occursIn starTagL f then '*' :: b ++ ['*'] else b
  let b2 := if occursIn slashTagL f then '/' :: b1 ++ ['/'] else b1
  if occursIn engTagL f then engMark ++ b2 else b2

/-- An item-start line of the tokenizer. -/
def lineStartB (l : String) : Bool := strStarts "- " l

/-- A line the tokenizer buffers or skips: continuation, comment or blank. -/
def lineSkipB (l : String) : Bool := strStarts "  " l || strStarts "#" l || pyIsSpaceStr l

/-- A line that terminates tokenization. -/
def lineTermB (l : String) : Bool := !(lineStartB l || lineSkipB l)

/-- The number of item-start lines before the first terminator line. -/
def itemsCount (doc : List String) : Nat :=
  ((doc.takeWhile fun l => !lineTermB l).filter lineStartB).length

/-! Part G: basic lemmas about character classes, list utilities and the
segment view. -/

theorem isTagChar_ne_brk {a : Char} (h : isTagChar a = true) : a ≠ '<' ∧ a ≠ '>' := by
  constructor <;> rintro rfl <;> exact absurd h (by decide)

theorem isBodyChar_ne_brk {a : Char} (h : isBodyChar a = true) : a ≠ '<' ∧ a ≠ '>' := by
  constructor <;> rintro rfl <;> exact absurd h (by decide)

theorem takeWhile_all_eq {α} {p : α → Bool} {l : List α} (h : ∀ a ∈ l, p a = true) :
    l.takeWhile p = l := by
  induction l with
  | nil => rfl
  | cons a t ih =>
      rw [List.takeWhile_cons, if_pos (h a (List.mem_cons_self a t))]
      rw [ih fun b hb => h b (List.mem_cons_of_mem a hb)]

theorem dropWhile_all_nil {α} {p : α → Bool} {l : List α} (h : ∀ a ∈ l, p a = true) :
    l.dropWhile p = [] := by
  induction l with
  | nil => rfl
  | cons a t ih =>
      rw [List.dropWhile_cons, if_pos (h a (List.mem_cons_self a t))]
      exact ih fun b hb => h b (List.mem_cons_of_mem a hb)

theorem takeWhile_append_all {α} {p : α → Bool} {xs : List α} (ys : List α)
    (h : ∀ a ∈ xs, p a = true) : (xs ++ ys).takeWhile p = xs ++ ys.takeWhile p := by
  induction xs with
  | nil => rfl
  | cons a t ih =>
      rw [List.cons_append, List.takeWhile_cons, if_pos (h a (List.mem_cons_self a t))]
      rw [ih fun b hb => h b (List.mem_cons_of_mem a hb)]
      rfl

theorem dropWhile_append_all {α} {p : α → Bool} {xs : List α} (ys : List α)
    (h : ∀ a ∈ xs, p a = true) : (xs ++ ys).dropWhile p = ys.dropWhile p := by
  induction xs with
  | nil => rfl
  | cons a t ih =>
      rw [List.cons_append, List.dropWhile_cons, if_pos (h a (List.mem_cons_self a t))]
      exact ih fun b hb => h b (List.mem_cons_of_mem a hb)

theorem render_append (u v : List Seg) : render (u ++ v) = render u ++ render v := by
  induction u with
  | nil => rfl
  | cons sg t ih => rw [List.cons_append, render, render, ih, List.append_assoc]

theorem rawRender_append (u v : List Seg) : rawRender (u ++ v) = rawRender u ++ rawRender v := by
  induction u with
  | nil => rfl
  | cons sg t ih => rw [List.cons_append, rawRender, rawRender, ih, List.append_assoc]

theorem render_chrSegs (s : List Char) : render (chrSegs s) = s := by
  induction s with
  | nil => rfl
  | cons a t ih => rw [chrSegs, List.map_cons, render, segRender, ← chrSegs, ih]; rfl

theorem rawRender_chrSegs (s : List Char) : rawRender (chrSegs s) = s := by
  induction s with
  | nil => rfl
  | cons a t ih => rw [chrSegs, List.map_cons, rawRender, segRaw, ← chrSegs, ih]; rfl

theorem renderTags_eq_render (cs : List (List Char)) : renderTags cs = render (tagSegs cs) := by
  induction cs with
  | nil => rfl
  | cons c t ih => rw [renderTags, tagSegs, List.map_cons, render, segRender, ← tagSegs, ih]

theorem WfSegs_append {u v : List Seg} (hu : WfSegs u) (hv : WfSegs v) : WfSegs (u ++ v) := by
  intro sg hsg
  rcases List.mem_append.mp hsg with h | h
  · exact hu sg h
  · exact hv sg h

theorem WfSegs_chrSegs {s : List Char} (h : NoBrk s) : WfSegs (chrSegs s) := by
  intro sg hsg
  rcases List.mem_map.mp hsg with ⟨a, ha, rfl⟩
  exact h a ha

theorem WfSegs_tagSegs {cs : List (List Char)} (h : TagsWF cs) : WfSegs (tagSegs cs) := by
  intro sg hsg
  rcases List.mem_map.mp hsg with ⟨c, hc, rfl⟩
  exact h c hc

theorem noBrk_rawRender {segs : List Seg} (hw : WfSegs segs) : NoBrk (rawRender segs) := by
  induction segs with
  | nil => intro c hc; cases hc
  | cons sg t ih =>
      intro c hc
      rw [rawRender] at hc
      rcases List.mem_append.mp hc with h | h
      · cases sg with
        | chr a =>
            rw [segRaw, List.mem_singleton] at h
            subst h
            exact hw (.chr c) (List.mem_cons_self _ _)
        | tag d =>
            rw [segRaw] at h
            exact isTagChar_ne_brk ((hw (.tag d) (List.mem_cons_self _ _)).2 c h)
      · exact ih (fun sg hsg => hw sg (List.mem_cons_of_mem _ hsg)) c h

theorem noBrk_append {u v : List Char} (hu : NoBrk u) (hv : NoBrk v) : NoBrk (u ++ v) := by
  intro c hc
  rcases List.mem_append.mp hc with h | h
  · exact hu c h
  · exact hv c h

/-! Lemmas about the fueled replace. -/

theorem replaceAllF_nil (pat rep : List Char) (g : Nat) : replaceAllF pat rep g [] = [] := by
  cases g <;> rfl

theorem replaceAllF_cons_pos {pat : List Char} (rep : List Char) (g : Nat) {c : Char}
    {s : List Char} (h : pat.isPrefixOf (c :: s) = true) :
    replaceAllF pat rep (g+1) (c :: s) = rep ++ replaceAllF pat rep g ((c :: s).drop pat.length) := by
  simp only [replaceAllF, h, if_true]

theorem replaceAllF_cons_neg {pat rep : List Char} {g : Nat} {c : Char} {s : List Char}
    (h : ¬ pat.isPrefixOf (c :: s) = true) :
    replaceAllF pat rep (g+1) (c :: s) = c :: replaceAllF pat rep g s := by
  simp only [replaceAllF, if_neg h]

theorem replaceAllF_fuel {pat rep : List Char} (hp : pat ≠ []) :
    ∀ n g g' (s : List Char), s.length ≤ n → s.length ≤ g → s.length ≤ g' →
      replaceAllF pat rep g s = replaceAllF pat rep g' s := by
  intro n
  induction n with
  | zero =>
      intro g g' s hs _ _
      have : s = [] := List.length_eq_zero.mp (Nat.le_zero.mp hs)
      subst this
      rw [replaceAllF_nil, replaceAllF_nil]
  | succ n ih =>
      intro g g' s hs hg hg'
      cases s with
      | nil => rw [replaceAllF_nil, replaceAllF_nil]
      | cons c s' =>
          have hpl : 1 ≤ pat.length := by
            cases pat with
            | nil => exact absurd rfl hp
            | cons a b => simp
          have hlen : (c :: s').length = s'.length + 1 := by simp
          obtain ⟨g1, rfl⟩ : ∃ k, g = k + 1 := ⟨g - 1, by omega⟩
          obtain ⟨g2, rfl⟩ : ∃ k, g' = k + 1 := ⟨g' - 1, by omega⟩
          by_cases h : pat.isPrefixOf (c :: s') = true
          · rw [replaceAllF_cons_pos rep g1 h, replaceAllF_cons_pos rep g2 h]
            have hd : ((c :: s').drop pat.length).length = (c :: s').length - pat.length := by
              rw [List.length_drop]
            refine congrArg _ (ih g1 g2 _ ?_ ?_ ?_) <;> omega
          · rw [replaceAllF_cons_neg h, replaceAllF_cons_neg h]
            refine congrArg _ (ih g1 g2 s' ?_ ?_ ?_) <;> omega

theorem replaceAllF_skip {p0 : Char} {pt rep : List Char} {xs : List Char}
    (hx : ∀ x ∈ xs, x ≠ p0) :
    ∀ g s, replaceAllF (p0 :: pt) rep (xs.length + g) (xs ++ s) =
      xs ++ replaceAllF (p0 :: pt) rep g s := by
  induction xs with
  | nil => intro g s; simp
  | cons x t ih =>
      intro g s
      have hnp : ¬ (p0 :: pt).isPrefixOf (x :: (t ++ s)) = true := by
        intro hc
        rw [List.isPrefixOf_iff_prefix, List.cons_prefix_cons] at hc
        exact hx x (List.mem_cons_self x t) hc.1.symm
      have hl : (x :: t).length + g = (t.length + g) + 1 := by simp; omega
      rw [List.cons_append, hl, replaceAllF_cons_neg hnp,
        ih (fun b hb => hx b (List.mem_cons_of_mem x hb)) g s]
      rfl

/-! Part H: occurrences of a tag in a well-formed segment string are whole
tags, and the replace loop acts segment-wise. -/

theorem not_brace_lt_mem {c : List Char} (h : ∀ a ∈ c, isTagChar a = true) : '<' ∉ c :=
  fun hm => (isTagChar_ne_brk (h '<' hm)).1 rfl

theorem not_brace_gt_mem {c : List Char} (h : ∀ a ∈ c, isTagChar a = true) : '>' ∉ c :=
  fun hm => (isTagChar_ne_brk (h '>' hm)).2 rfl

theorem eq_of_prefix_tagish {c : List Char} :
    ∀ {d t : List Char}, '>' ∉ c → '>' ∉ d → (c ++ ['>'] <+: d ++ '>' :: t) → c = d := by
  induction c with
  | nil =>
      intro d t _ hd h
      cases d with
      | nil => rfl
      | cons x d' =>
          rw [List.nil_append, List.cons_append, List.cons_prefix_cons] at h
          exact absurd (h.1 ▸ List.mem_cons_self x d') hd
  | cons y c' ih =>
      intro d t hc hd h
      cases d with
      | nil =>
          rw [List.cons_append, List.nil_append, List.cons_prefix_cons] at h
          exact absurd (h.1 ▸ List.mem_cons_self y c') hc
      | cons x d' =>
          rw [List.cons_append, List.cons_append, List.cons_prefix_cons] at h
          obtain ⟨rfl, h2⟩ := h
          rw [ih (fun hm => hc (List.mem_cons_of_mem _ hm))
            (fun hm => hd (List.mem_cons_of_mem _ hm)) h2]

theorem tagStr_prefix_eq {c d t : List Char} (hc : '>' ∉ c) (hd : '>' ∉ d)
    (h : tagStr c <+: '<' :: d ++ '>' :: t) : c = d := by
  simp only [tagStr, List.cons_append] at h
  rw [List.cons_prefix_cons] at h
  exact eq_of_prefix_tagish hc hd h.2

theorem tagCount_append (u v : List Seg) : tagCount (u ++ v) = tagCount u + tagCount v := by
  induction u with
  | nil => simp [tagCount]
  | cons sg t ih =>
      cases sg with
      | chr a => rw [List.cons_append, tagCount, tagCount, ih]
      | tag d => rw [List.cons_append, tagCount, tagCount, ih]; omega

theorem tagCount_chrSegs (s : List Char) : tagCount (chrSegs s) = 0 := by
  induction s with
  | nil => rfl
  | cons a t ih => rw [chrSegs, List.map_cons, tagCount, ← chrSegs, ih]

theorem WfSegs_convAll {c : List Char} {rep segs : List Seg} (hrep : WfSegs rep)
    (h : WfSegs segs) : WfSegs (convAll c rep segs) := by
  induction segs with
  | nil => intro sg hsg; cases hsg
  | cons sg t ih =>
      rw [convAll]
      refine WfSegs_append ?_ (ih fun x hx => h x (List.mem_cons_of_mem _ hx))
      cases sg with
      | chr a =>
          intro x hx
          rw [convSeg, List.mem_singleton] at hx
          subst hx
          exact h _ (List.mem_cons_self _ _)
      | tag d =>
          rw [convSeg]
          by_cases hdc : d = c
          · rw [if_pos hdc]; exact hrep
          · rw [if_neg hdc]
            intro x hx
            rw [List.mem_singleton] at hx
            subst hx
            exact h _ (List.mem_cons_self _ _)

theorem rawRender_convAll_chr (c : List Char) (segs : List Seg) :
    rawRender (convAll c (chrSegs c) segs) = rawRender segs := by
  induction segs with
  | nil => rfl
  | cons sg t ih =>
      rw [convAll, rawRender_append, ih]
      cases sg with
      | chr a => simp [convSeg, rawRender, segRaw]
      | tag d =>
          by_cases hdc : d = c
          · subst hdc
            simp [convSeg, rawRender, segRaw, rawRender_chrSegs]
          · simp [convSeg, hdc, rawRender, segRaw]

theorem tagCount_convAll_le (c : List Char) {rep : List Seg} (hrep : tagCount rep = 0)
    (segs : List Seg) : tagCount (convAll c rep segs) ≤ tagCount segs := by
  induction segs with
  | nil => simp [convAll, tagCount]
  | cons sg t ih =>
      rw [convAll, tagCount_append]
      cases sg with
      | chr a => rw [convSeg, tagCount]; simpa [tagCount] using ih
      | tag d =>
          rw [convSeg, tagCount]
          by_cases hdc : d = c
          · rw [if_pos hdc, hrep]; omega
          · rw [if_neg hdc]; simp [tagCount]; omega

theorem tagCount_convAll_lt {c : List Char} {rep : List Seg} (hrep : tagCount rep = 0)
    {segs : List Seg} (hmem : Seg.tag c ∈ segs) :
    tagCount (convAll c rep segs) < tagCount segs := by
  induction segs with
  | nil => cases hmem
  | cons sg t ih =>
      rw [convAll, tagCount_append]
      rcases List.mem_cons.mp hmem with heq | hmem'
      · subst heq
        rw [convSeg, if_pos rfl, hrep, tagCount]
        have := tagCount_convAll_le c hrep t
        omega
      · have hlt := ih hmem'
        cases sg with
        | chr a => rw [convSeg, tagCount]; simpa [tagCount] using hlt
        | tag d =>
            rw [convSeg, tagCount]
            by_cases hdc : d = c
            · rw [if_pos hdc, hrep]
              have := tagCount_convAll_le c hrep t
              omega
            · rw [if_neg hdc]; simp [tagCount]; omega

theorem replaceAllF_render_conv {c : List Char} {rep : List Seg}
    (hcw : ∀ a ∈ c, isTagChar a = true) :
    ∀ segs : List Seg, WfSegs segs → ∀ g, (render segs).length ≤ g →
      replaceAllF (tagStr c) (render rep) g (render segs) = render (convAll c rep segs) := by
  intro segs
  induction segs with
  | nil => intro _ g _; rw [render, replaceAllF_nil]; rfl
  | cons sg t ih =>
      intro hw g hg
      have hwt : WfSegs t := fun x hx => hw x (List.mem_cons_of_mem _ hx)
      cases sg with
      | chr a =>
          have ha : a ≠ '<' ∧ a ≠ '>' := hw (.chr a) (List.mem_cons_self _ _)
          have hr : render (Seg.chr a :: t) = a :: render t := rfl
          rw [hr] at hg ⊢
          obtain ⟨g1, rfl⟩ : ∃ k, g = k + 1 := ⟨g - 1, by simp at hg; omega⟩
          have hnp : ¬ (tagStr c).isPrefixOf (a :: render t) = true := by
            intro hpf
            simp only [List.isPrefixOf_iff_prefix, tagStr, List.cons_append] at hpf
            rw [List.cons_prefix_cons] at hpf
            exact ha.1 hpf.1.symm
          rw [replaceAllF_cons_neg hnp, ih hwt g1 (by simp at hg; omega)]
          simp [convAll, convSeg, render_append, render, segRender]
      | tag d =>
          have hd : d ≠ [] ∧ ∀ a ∈ d, isTagChar a = true := hw (.tag d) (List.mem_cons_self _ _)
          have hr : render (Seg.tag d :: t) = '<' :: (d ++ '>' :: render t) := by
            rw [render, segRender, tagStr]
            simp
          rw [hr] at hg ⊢
          have hglen : d.length + 2 + (render t).length ≤ g := by
            simp at hg
            omega
          obtain ⟨g1, rfl⟩ : ∃ k, g = k + 1 := ⟨g - 1, by omega⟩
          by_cases hdc : d = c
          · subst hdc
            have hsh : '<' :: (d ++ '>' :: render t) = tagStr d ++ render t := by simp [tagStr]
            have hpf : (tagStr d).isPrefixOf ('<' :: (d ++ '>' :: render t)) = true := by
              rw [List.isPrefixOf_iff_prefix, hsh]
              exact List.prefix_append _ _
            rw [replaceAllF_cons_pos (render rep) g1 hpf]
            have hdrop : ('<' :: (d ++ '>' :: render t)).drop (tagStr d).length = render t := by
              rw [hsh, List.drop_left]
            rw [hdrop, ih hwt g1 (by omega)]
            rw [convAll, convSeg, if_pos rfl, render_append]
          · have hnp : ¬ (tagStr c).isPrefixOf ('<' :: (d ++ '>' :: render t)) = true := by
              intro hpf
              rw [List.isPrefixOf_iff_prefix] at hpf
              exact hdc (tagStr_prefix_eq (not_brace_gt_mem hcw) (not_brace_gt_mem hd.2) hpf).symm
            rw [replaceAllF_cons_neg hnp]
            have hsh2 : d ++ '>' :: render t = (d ++ ['>']) ++ render t := by simp
            have hxs : ∀ x ∈ d ++ ['>'], x ≠ '<' := by
              intro x hx
              rcases List.mem_append.mp hx with h1 | h1
              · exact (isTagChar_ne_brk (hd.2 x h1)).1
              · rw [List.mem_singleton] at h1
                subst h1
                decide
            have hg1 : g1 = (d ++ ['>']).length + (g1 - (d ++ ['>']).length) := by
              simp
              omega
            rw [hsh2, hg1]
            simp only [tagStr, List.cons_append]
            rw [replaceAllF_skip hxs _ _]
            rw [show ('<' : Char) :: (c ++ ['>']) = tagStr c from rfl]
            rw [ih hwt _ (by
              have h2 : (d ++ ['>']).length = d.length + 1 := by simp
              omega)]
            rw [convAll, convSeg, if_neg hdc]
            simp [render, segRender, tagStr, render_append]

/-! Part I: the search/unwrap loop acts segment-wise, and terminates with
all brackets stripped. -/

theorem replaceAll_render_conv (c : List Char) (rep : List Seg)
    (hcw : ∀ a ∈ c, isTagChar a = true) (segs : List Seg) (hw : WfSegs segs) :
    replaceAll (render segs) (tagStr c) (render rep) = render (convAll c rep segs) := by
  rw [replaceAll, if_neg (by simp [tagStr])]
  exact replaceAllF_render_conv hcw segs hw _ le_rfl

theorem parseTag_tag {d : List Char} (hne : d ≠ []) (hw : ∀ a ∈ d, isTagChar a = true)
    (t : List Char) : parseTag ('<' :: (d ++ '>' :: t)) = some (d, t) := by
  have h1 : (d ++ '>' :: t).takeWhile isTagChar = d := by
    rw [takeWhile_append_all _ hw, List.takeWhile_cons, if_neg (by decide)]
    simp
  have h2 : (d ++ '>' :: t).dropWhile isTagChar = '>' :: t := by
    rw [dropWhile_append_all _ hw, List.dropWhile_cons, if_neg (by decide)]
  simp [parseTag, h1, h2, hne]

theorem parseTag_not_lt {a : Char} (s : List Char) (h : a ≠ '<') : parseTag (a :: s) = none := by
  simp [parseTag, h]

theorem findTag_cons_none {c : Char} {s : List Char} (h : parseTag (c :: s) = none) :
    findTag (c :: s) = findTag s := by
  simp [findTag, h]

theorem findTag_cons_some {c : Char} {s : List Char} {p : List Char × List Char}
    (h : parseTag (c :: s) = some p) : findTag (c :: s) = some p.1 := by
  simp [findTag, h]

theorem findTag_render {segs : List Seg} (hw : WfSegs segs) :
    (tagCount segs = 0 ∧ findTag (render segs) = none) ∨
    (∃ c, findTag (render segs) = some c ∧ Seg.tag c ∈ segs) := by
  induction segs with
  | nil => left; exact ⟨rfl, rfl⟩
  | cons sg t ih =>
      have hwt : WfSegs t := fun x hx => hw x (List.mem_cons_of_mem _ hx)
      cases sg with
      | chr a =>
          have ha := hw (.chr a) (List.mem_cons_self _ _)
          have hr : render (Seg.chr a :: t) = a :: render t := rfl
          rw [hr, findTag_cons_none (parseTag_not_lt _ ha.1)]
          rcases ih hwt with ⟨h0, hn⟩ | ⟨c, hf, hm⟩
          · left; exact ⟨h0, hn⟩
          · right; exact ⟨c, hf, List.mem_cons_of_mem _ hm⟩
      | tag d =>
          have hd := hw (.tag d) (List.mem_cons_self _ _)
          have hr : render (Seg.tag d :: t) = '<' :: (d ++ '>' :: render t) := by
            rw [render, segRender, tagStr]
            simp
          rw [hr]
          right
          exact ⟨d, findTag_cons_some (parseTag_tag hd.1 hd.2 _), List.mem_cons_self _ _⟩

theorem render_eq_raw_of_zero {segs : List Seg} (h : tagCount segs = 0) :
    render segs = rawRender segs := by
  induction segs with
  | nil => rfl
  | cons sg t ih =>
      cases sg with
      | chr a =>
          have h0 : tagCount t = 0 := h
          rw [render, rawRender, ih h0]
          rfl
      | tag d => exact absurd h (by rw [tagCount]; omega)

theorem tagCount_le_render_len (segs : List Seg) : tagCount segs ≤ (render segs).length := by
  induction segs with
  | nil => simp [tagCount, render]
  | cons sg t ih =>
      cases sg with
      | chr a =>
          rw [tagCount, render]
          simp only [List.length_append]
          omega
      | tag d =>
          rw [tagCount, render]
          simp only [List.length_append, segRender, tagStr]
          simp
          omega

theorem unwrapF_render : ∀ g (segs : List Seg), WfSegs segs → tagCount segs < g →
    unwrapF g (render segs) = rawRender segs := by
  intro g
  induction g with
  | zero => intro segs _ h; omega
  | succ g ih =>
      intro segs hw hc
      rcases findTag_render hw with ⟨h0, hn⟩ | ⟨c, hf, hm⟩
      · simp only [unwrapF, hn]
        exact render_eq_raw_of_zero h0
      · simp only [unwrapF, hf]
        have hcw : ∀ a ∈ c, isTagChar a = true := (hw _ hm).2
        have hrw : replaceAll (render segs) (tagStr c) c = render (convAll c (chrSegs c) segs) := by
          have h2 := replaceAll_render_conv c (chrSegs c) hcw segs hw
          rwa [render_chrSegs] at h2
        have hnb : NoBrk c := fun a ha => isTagChar_ne_brk (hcw a ha)
        have hlt := tagCount_convAll_lt (tagCount_chrSegs c) hm
        rw [hrw, ih _ (WfSegs_convAll (WfSegs_chrSegs hnb) hw) (by omega),
          rawRender_convAll_chr]

theorem unwrap_render {segs : List Seg} (hw : WfSegs segs) :
    unwrapTags (render segs) = rawRender segs := by
  rw [unwrapTags]
  have := tagCount_le_render_len segs
  exact unwrapF_render _ segs hw (by omega)

/-! Occurrence as a substring, and occurrences of tags in a well-formed
segment string. -/

theorem occursIn_infix_iff {pat s : List Char} : occursIn pat s = true ↔ pat <:+: s := by
  induction s with
  | nil => simp [occursIn, List.infix_nil, List.isEmpty_iff]
  | cons c t ih =>
      rw [occursIn, Bool.or_eq_true, List.isPrefixOf_iff_prefix, ih, List.infix_cons_iff]

theorem split_through {p0 : Char} {pt : List Char} {xs : List Char} (hxs : ∀ x ∈ xs, x ≠ p0) :
    ∀ u v ys, u ++ (p0 :: pt) ++ v = xs ++ ys →
      ∃ u2, u = xs ++ u2 ∧ u2 ++ (p0 :: pt) ++ v = ys := by
  induction xs with
  | nil => intro u v ys h; exact ⟨u, rfl, by simpa using h⟩
  | cons x t ih =>
      intro u v ys h
      cases u with
      | nil =>
          rw [List.nil_append, List.cons_append, List.cons_append] at h
          have := (List.cons.injEq _ _ _ _).mp h
          exact absurd this.1.symm (hxs x (List.mem_cons_self x t))
      | cons b u' =>
          rw [List.cons_append, List.cons_append, List.cons_append] at h
          have hinj := (List.cons.injEq _ _ _ _).mp h
          obtain ⟨u2, hu2, h2⟩ := ih (fun y hy => hxs y (List.mem_cons_of_mem _ hy)) u' v ys
            hinj.2
          refine ⟨u2, ?_, h2⟩
          rw [hinj.1, hu2]
          rfl

theorem tag_infix_mem {c : List Char} (hcgt : '>' ∉ c) :
    ∀ {segs : List Seg}, WfSegs segs → tagStr c <:+: render segs → Seg.tag c ∈ segs := by
  intro segs
  induction segs with
  | nil =>
      intro _ h
      rw [render, List.infix_nil, tagStr] at h
      exact absurd h (by simp)
  | cons sg t ih =>
      intro hw h
      have hwt : WfSegs t := fun x hx => hw x (List.mem_cons_of_mem _ hx)
      obtain ⟨u, v, huv⟩ := h
      cases sg with
      | chr a =>
          have ha := hw (.chr a) (List.mem_cons_self _ _)
          have hr : render (Seg.chr a :: t) = a :: render t := rfl
          rw [hr] at huv
          cases u with
          | nil =>
              rw [List.nil_append, tagStr, List.cons_append, List.cons_append] at huv
              have := (List.cons.injEq _ _ _ _).mp huv
              exact absurd this.1.symm ha.1
          | cons b u' =>
              rw [List.cons_append, List.cons_append] at huv
              have hinj := (List.cons.injEq _ _ _ _).mp huv
              refine List.mem_cons_of_mem _ (ih hwt ⟨u', v, ?_⟩)
              rw [← List.cons_append] at huv
              exact hinj.2
      | tag d =>
          have hd := hw (.tag d) (List.mem_cons_self _ _)
          have hr : render (Seg.tag d :: t) = '<' :: (d ++ '>' :: render t) := by
            rw [render, segRender, tagStr]
            simp
          rw [hr] at huv
          cases u with
          | nil =>
              rw [List.nil_append] at huv
              have hpf : tagStr c <+: '<' :: d ++ '>' :: render t := by
                refine ⟨v, ?_⟩
                rw [huv]
                simp
              have := tagStr_prefix_eq hcgt (not_brace_gt_mem hd.2) hpf
              subst this
              exact List.mem_cons_self _ _
          | cons b u' =>
              rw [List.cons_append, List.cons_append] at huv
              have hinj := (List.cons.injEq _ _ _ _).mp huv
              have hxs : ∀ x ∈ d ++ ['>'], x ≠ '<' := by
                intro x hx
                rcases List.mem_append.mp hx with h1 | h1
                · exact (isTagChar_ne_brk (hd.2 x h1)).1
                · rw [List.mem_singleton] at h1
                  subst h1
                  decide
              have hsh : d ++ '>' :: render t = (d ++ ['>']) ++ render t := by simp
              have htags : tagStr c = '<' :: (c ++ ['>']) := by simp [tagStr]
              have h3 := hinj.2
              rw [htags, hsh] at h3
              obtain ⟨u2, hu2, h2⟩ := split_through hxs u' v (render t) h3
              rw [← htags] at h2
              exact List.mem_cons_of_mem _ (ih hwt ⟨u2, v, h2⟩)

theorem occursIn_render_iff {c : List Char} {segs : List Seg} (hw : WfSegs segs)
    (hcgt : '>' ∉ c) : occursIn (tagStr c) (render segs) = true ↔ Seg.tag c ∈ segs := by
  rw [occursIn_infix_iff]
  constructor
  · exact fun h => tag_infix_mem hcgt hw h
  · intro hm
    obtain ⟨s1, s2, rfl⟩ := List.append_of_mem hm
    rw [render_append, render]
    exact ⟨render s1, render s2, by rw [segRender]; simp⟩

/-! Part J: soundness of the full-match parser and the structure of the
question text produced by _apply_tags. -/

theorem eq_cons_of_head {α} {s : List α} {a : α} (h : s.head? = some a) : s = a :: s.tail := by
  cases s with
  | nil => cases h
  | cons b t =>
      simp only [List.head?_cons, Option.some.injEq] at h
      rw [h]
      rfl

theorem parseTag_sound {s c rest : List Char} (h : parseTag s = some (c, rest)) :
    s = tagStr c ++ rest ∧ c ≠ [] ∧ ∀ a ∈ c, isTagChar a = true := by
  by_cases h0 : s.head? = some '<'
  · have hs := eq_cons_of_head h0
    rw [parseTag, if_pos h0] at h
    simp only at h
    by_cases h1 : (s.tail.takeWhile isTagChar).isEmpty = true
    · rw [if_pos h1] at h
      cases h
    · rw [if_neg h1] at h
      by_cases h2 : (s.tail.dropWhile isTagChar).head? = some '>'
      · rw [if_pos h2] at h
        have hd := eq_cons_of_head h2
        obtain ⟨hc, hr⟩ := (Prod.mk.injEq _ _ _ _).mp ((Option.some.injEq _ _).mp h)
        subst hc
        subst hr
        refine ⟨?_, ?_, fun a ha => List.mem_takeWhile_imp ha⟩
        · rw [tagStr]
          conv_lhs => rw [hs]
          have hsplit : s.tail = s.tail.takeWhile isTagChar ++ s.tail.dropWhile isTagChar :=
            (List.takeWhile_append_dropWhile isTagChar s.tail).symm
          conv_lhs => rw [hsplit, hd]
          simp
        · intro hc0
          rw [hc0] at h1
          exact h1 rfl
      · rw [if_neg h2] at h
        cases h
  · rw [parseTag, if_neg h0] at h
    cases h

theorem parseTagsF_sound : ∀ g s, renderTags (parseTagsF g s).1 ++ (parseTagsF g s).2 = s ∧
    TagsWF (parseTagsF g s).1 := by
  intro g
  induction g with
  | zero => intro s; exact ⟨rfl, fun c hc => absurd hc (List.not_mem_nil c)⟩
  | succ g ih =>
      intro s
      cases hp : parseTag s with
      | none =>
          simp only [parseTagsF, hp]
          exact ⟨rfl, fun c hc => absurd hc (List.not_mem_nil c)⟩
      | some p =>
          obtain ⟨c, rest⟩ := p
          obtain ⟨hs, hcne, hcw⟩ := parseTag_sound hp
          obtain ⟨ht, hw⟩ := ih rest
          simp only [parseTagsF, hp]
          constructor
          · rw [renderTags, List.append_assoc, ht, hs]
          · intro d hd
            rcases List.mem_cons.mp hd with rfl | hd2
            · exact ⟨hcne, hcw⟩
            · exact hw d hd2

theorem parseTagText_sound {s f b bk : List Char} (h : parseTagText s = some (f, b, bk)) :
    (∃ ft, f = renderTags ft ∧ TagsWF ft) ∧
    (b ≠ [] ∧ ∀ a ∈ b, isBodyChar a = true) ∧
    (∃ bt, bk = renderTags bt ∧ TagsWF bt) := by
  rw [parseTagText] at h
  simp only at h
  by_cases h1 : ((parseTagsF s.length s).2.takeWhile isBodyChar).isEmpty = true
  · rw [if_pos h1] at h
    cases h
  · rw [if_neg h1] at h
    by_cases h2 : ((parseTagsF ((parseTagsF s.length s).2.dropWhile isBodyChar).length
        ((parseTagsF s.length s).2.dropWhile isBodyChar)).2).isEmpty = true
    · rw [if_pos h2] at h
      have h3 := (Option.some.injEq _ _).mp h
      obtain ⟨h4a, h4b⟩ := (Prod.mk.injEq _ _ _ _).mp h3
      obtain ⟨h5a, h5b⟩ := (Prod.mk.injEq _ _ _ _).mp h4b
      subst h4a
      subst h5a
      subst h5b
      refine ⟨⟨_, rfl, (parseTagsF_sound _ _).2⟩, ⟨?_, fun a ha => List.mem_takeWhile_imp ha⟩,
        ⟨_, rfl, (parseTagsF_sound _ _).2⟩⟩
      intro hc0
      rw [hc0] at h1
      exact h1 rfl
    · rw [if_neg h2] at h
      cases h

theorem bool_eq_of_iff {a b : Bool} (h : a = true ↔ b = true) : a = b := by
  cases a <;> cases b <;> simp_all

theorem convAll_del_tags (c : List Char) (cs : List (List Char)) :
    convAll c [] (tagSegs cs) = tagSegs (cs.filter fun d => !(d == c)) := by
  induction cs with
  | nil => rfl
  | cons d t ih =>
      rw [tagSegs, List.map_cons, convAll, convSeg, ← tagSegs, ih]
      by_cases hdc : d = c
      · subst hdc
        rw [if_pos rfl, List.filter_cons, if_neg (by simp)]
        rfl
      · rw [if_neg hdc, List.filter_cons, if_pos (by simp [hdc])]
        rfl

theorem replaceAll_del_tags (c : List Char) (hcw : ∀ a ∈ c, isTagChar a = true)
    (cs : List (List Char)) (hw : TagsWF cs) :
    ∃ cs2, replaceAll (renderTags cs) (tagStr c) [] = renderTags cs2 ∧ TagsWF cs2 ∧
      ∀ d, d ≠ c → (d ∈ cs2 ↔ d ∈ cs) := by
  refine ⟨cs.filter fun d => !(d == c), ?_, ?_, ?_⟩
  · have h0 := replaceAll_render_conv c [] hcw (tagSegs cs) (WfSegs_tagSegs hw)
    rw [renderTags_eq_render]
    rw [show render ([] : List Seg) = [] from rfl] at h0
    rw [h0, convAll_del_tags, renderTags_eq_render]
  · intro d hd
    exact hw d (List.mem_of_mem_filter hd)
  · intro d hd
    constructor
    · exact fun hm => List.mem_of_mem_filter hm
    · intro hm
      exact List.mem_filter.mpr ⟨hm, by simp [hd]⟩

theorem occursIn_tags_iff {c : List Char} (hcgt : '>' ∉ c) {cs : List (List Char)}
    (hw : TagsWF cs) : occursIn (tagStr c) (renderTags cs) = true ↔ c ∈ cs := by
  rw [renderTags_eq_render, occursIn_render_iff (WfSegs_tagSegs hw) hcgt]
  constructor
  · intro hm
    rcases List.mem_map.mp hm with ⟨d, hd, he⟩
    cases he
    exact hd
  · intro hm
    exact List.mem_map_of_mem _ hm

theorem specialStep (x : List Char) (hxw : ∀ a ∈ x, isTagChar a = true)
    {ft : List (List Char)} (hw : TagsWF ft) (b1 b2 : List Char) :
    ∃ ft1, (if occursIn (tagStr x) (renderTags ft) = true
            then (replaceAll (renderTags ft) (tagStr x) [], b2) else (renderTags ft, b1))
        = (renderTags ft1, if occursIn (tagStr x) (renderTags ft) = true then b2 else b1)
      ∧ TagsWF ft1 ∧ ∀ d, d ≠ x → (d ∈ ft1 ↔ d ∈ ft) := by
  by_cases h : occursIn (tagStr x) (renderTags ft) = true
  · obtain ⟨ft1, he, hw1, hm⟩ := replaceAll_del_tags x hxw ft hw
    exact ⟨ft1, by rw [if_pos h, if_pos h, he], hw1, hm⟩
  · exact ⟨ft, by rw [if_neg h, if_neg h], hw, fun d _ => Iff.rfl⟩

theorem specialPair_eq {ft : List (List Char)} (hw : TagsWF ft) (b : List Char) :
    ∃ ft2, specialPair (renderTags ft) b = (renderTags ft2, finalBody (renderTags ft) b) ∧
      TagsWF ft2 := by
  have hstar : starTagL = tagStr ['*'] := rfl
  have hslash : slashTagL = tagStr ['/'] := rfl
  have heng : engTagL = tagStr ['e', 'n', 'g'] := rfl
  obtain ⟨ft1, he1, hw1, hm1⟩ := specialStep ['*'] (by decide) hw b ('*' :: b ++ ['*'])
  rw [← hstar] at he1
  obtain ⟨ft2, he2, hw2, hm2⟩ := specialStep ['/'] (by decide) hw1
    (if occursIn starTagL (renderTags ft) = true then '*' :: b ++ ['*'] else b)
    ('/' :: (if occursIn starTagL (renderTags ft) = true then '*' :: b ++ ['*'] else b) ++ ['/'])
  rw [← hslash] at he2
  obtain ⟨ft3, he3, hw3, hm3⟩ := specialStep ['e', 'n', 'g'] (by decide) hw2
    (if occursIn slashTagL (renderTags ft1) = true
     then '/' :: (if occursIn starTagL (renderTags ft) = true then '*' :: b ++ ['*'] else b) ++ ['/']
     else (if occursIn starTagL (renderTags ft) = true then '*' :: b ++ ['*'] else b))
    (engMark ++
      (if occursIn slashTagL (renderTags ft1) = true
       then '/' :: (if occursIn starTagL (renderTags ft) = true then '*' :: b ++ ['*'] else b) ++ ['/']
       else (if occursIn starTagL (renderTags ft) = true then '*' :: b ++ ['*'] else b)))
  rw [← heng] at he3
  have hc2 : occursIn slashTagL (renderTags ft1) = occursIn slashTagL (renderTags ft) := by
    rw [hslash]
    refine bool_eq_of_iff ?_
    rw [occursIn_tags_iff (by decide) hw1, occursIn_tags_iff (by decide) hw]
    exact hm1 ['/'] (by decide)
  have hc3 : occursIn engTagL (renderTags ft2) = occursIn engTagL (renderTags ft) := by
    rw [heng]
    refine bool_eq_of_iff ?_
    rw [occursIn_tags_iff (by decide) hw2, occursIn_tags_iff (by decide) hw]
    rw [hm2 ['e', 'n', 'g'] (by decide)]
    exact hm1 ['e', 'n', 'g'] (by decide)
  refine ⟨ft3, ?_, hw3⟩
  simp only [specialPair]
  rw [he1]
  simp only
  rw [he2]
  simp only
  rw [he3]
  simp only [finalBody]
  rw [hc2, hc3]

theorem noBrk_engMark : NoBrk engMark := by
  unfold NoBrk
  decide

theorem noBrk_finalBody {f b : List Char} (hb : NoBrk b) : NoBrk (finalBody f b) := by
  have hwrap : ∀ (a : Char), a ≠ '<' ∧ a ≠ '>' → ∀ x, NoBrk x → NoBrk (a :: x ++ [a]) := by
    intro a ha x hx c hc
    rcases List.mem_cons.mp hc with rfl | hc2
    · exact ha
    · rcases List.mem_append.mp hc2 with h3 | h3
      · exact hx c h3
      · rw [List.mem_singleton] at h3
        subst h3
        exact ha
  simp only [finalBody]
  by_cases h3 : occursIn engTagL f = true
  · rw [if_pos h3]
    refine noBrk_append noBrk_engMark ?_
    by_cases h2 : occursIn slashTagL f = true
    · rw [if_pos h2]
      refine hwrap '/' (by decide) _ ?_
      by_cases h1 : occursIn starTagL f = true
      · rw [if_pos h1]; exact hwrap '*' (by decide) _ hb
      · rw [if_neg h1]; exact hb
    · rw [if_neg h2]
      by_cases h1 : occursIn starTagL f = true
      · rw [if_pos h1]; exact hwrap '*' (by decide) _ hb
      · rw [if_neg h1]; exact hb
  · rw [if_neg h3]
    by_cases h2 : occursIn slashTagL f = true
    · rw [if_pos h2]
      refine hwrap '/' (by decide) _ ?_
      by_cases h1 : occursIn starTagL f = true
      · rw [if_pos h1]; exact hwrap '*' (by decide) _ hb
      · rw [if_neg h1]; exact hb
    · rw [if_neg h2]
      by_cases h1 : occursIn starTagL f = true
      · rw [if_pos h1]; exact hwrap '*' (by decide) _ hb
      · rw [if_neg h1]; exact hb

theorem applyTags_master {text f b bk : List Char} (h : parseTagText text = some (f, b, bk)) :
    ∃ u v, applyTagsL text = some (u ++ finalBody f b ++ v, b) ∧ NoBrk u ∧ NoBrk v ∧
      NoBrk (finalBody f b) := by
  obtain ⟨⟨ft, hfe, hftw⟩, ⟨hbne, hbc⟩, ⟨bt, hbke, hbtw⟩⟩ := parseTagText_sound h
  subst hfe
  subst hbke
  have hbnb : NoBrk b := fun a ha => isBodyChar_ne_brk (hbc a ha)
  obtain ⟨ft2, hsp, hw2⟩ := specialPair_eq hftw b
  have happ : applyTagsL text =
      some (unwrapTags (applySpecialTags (renderTags ft) b (renderTags bt)), b) := by
    rw [applyTagsL, h]
  have hfb : NoBrk (finalBody (renderTags ft) b) := noBrk_finalBody hbnb
  have hcomb : applySpecialTags (renderTags ft) b (renderTags bt) =
      render (tagSegs ft2 ++ chrSegs (finalBody (renderTags ft) b) ++ tagSegs bt) := by
    rw [applySpecialTags, hsp]
    dsimp only
    rw [render_append, render_append, render_chrSegs]
    simp only [← renderTags_eq_render]
  have hwall : WfSegs (tagSegs ft2 ++ chrSegs (finalBody (renderTags ft) b) ++ tagSegs bt) :=
    WfSegs_append (WfSegs_append (WfSegs_tagSegs hw2) (WfSegs_chrSegs hfb)) (WfSegs_tagSegs hbtw)
  refine ⟨rawRender (tagSegs ft2), rawRender (tagSegs bt), ?_, ?_, ?_, hfb⟩
  · rw [happ, hcomb, unwrap_render hwall, rawRender_append, rawRender_append, rawRender_chrSegs]
  · exact noBrk_rawRender (WfSegs_tagSegs hw2)
  · exact noBrk_rawRender (WfSegs_tagSegs hbtw)

theorem applyTagsL_inv {text : List Char} {p : List Char × List Char}
    (h : applyTagsL text = some p) :
    ∃ f bk, parseTagText text = some (f, p.2, bk) := by
  cases hp : parseTagText text with
  | none =>
      rw [applyTagsL, hp] at h
      cases h
  | some t =>
      obtain ⟨f, b, bk⟩ := t
      rw [applyTagsL, hp] at h
      have h2 := (Option.some.injEq _ _).mp h
      have hb : p.2 = b := by rw [← h2]
      rw [hb]
      exact ⟨f, bk, rfl⟩

theorem occursIn_false_of_noBrk {pat s : List Char} (hs : NoBrk s) (hpat : '<' ∈ pat) :
    occursIn pat s = false := by
  cases hocc : occursIn pat s with
  | false => rfl
  | true =>
      have hinf := occursIn_infix_iff.mp hocc
      exact absurd rfl ((hs '<' (hinf.subset hpat)).1)

/-- C9: for every phrase that fully matches the tag grammar
(tag)* body (tag)*, the answerText returned by _apply_tags is the body
group itself and contains no angle bracket, and the questionText, after
special-tag handling and the repeated unwrapping of remaining tags, also
contains no angle bracket. -/
theorem tag_processor_no_brackets (s q a : String) (h : applyTags s = some (q, a)) :
    (∃ f bk, parseTagText s.data = some (f, a.data, bk)) ∧
    (∀ c ∈ a.data, c ≠ '<' ∧ c ≠ '>') ∧ (∀ c ∈ q.data, c ≠ '<' ∧ c ≠ '>') := by
  rw [applyTags] at h
  cases hp : applyTagsL s.data with
  | none =>
      rw [hp] at h
      cases h
  | some p =>
      rw [hp] at h
      simp only [Option.map_some'] at h
      have h2 := (Prod.mk.injEq _ _ _ _).mp ((Option.some.injEq _ _).mp h)
      have hq : q = String.mk p.1 := h2.1.symm
      have ha : a = String.mk p.2 := h2.2.symm
      subst hq
      subst ha
      obtain ⟨f, bk, hparse⟩ := applyTagsL_inv hp
      obtain ⟨u, v, happ, hu, hv, hfb⟩ := applyTags_master hparse
      have hpe := (Option.some.injEq _ _).mp (hp.symm.trans happ)
      have hp1 : p.1 = u ++ finalBody f p.2 ++ v := by rw [hpe]
      refine ⟨⟨f, bk, hparse⟩, ?_, ?_⟩
      · obtain ⟨-, ⟨-, hbc⟩, -⟩ := parseTagText_sound hparse
        exact fun c hc => isBodyChar_ne_brk (hbc c hc)
      · intro c hc
        rw [show (String.mk p.1).data = p.1 from rfl, hp1] at hc
        exact noBrk_append (noBrk_append hu hfb) hv c hc

/-- C9 witness: a concrete phrase with one front tag and one back tag. -/
theorem tag_processor_no_brackets_witness :
    applyTags "<adj>nice<pl>" = some ("adjnicepl", "nice") ∧
    ((∃ f bk, parseTagText "<adj>nice<pl>".data = some (f, "nice".data, bk)) ∧
     (∀ c ∈ "nice".data, c ≠ '<' ∧ c ≠ '>') ∧ (∀ c ∈ "adjnicepl".data, c ≠ '<' ∧ c ≠ '>')) :=
  ⟨by decide, tag_processor_no_brackets "<adj>nice<pl>" "adjnicepl" "nice" (by decide)⟩

/-- C3 counterexample: on the phrase <*></>x the question text is /*x*/
(the star applied first, so innermost), not */x/* as the claim states. -/
theorem special_tags_order_cex :
    applyTags "<*></>x" = some ("/*x*/", "x") ∧ ("/*x*/" : String) ≠ "*/x/*" :=
  ⟨by decide, by decide⟩

/-- C3 amended: for every phrase whose front tag run contains both special
tags, the question text wraps the body as /*body/* with the star innermost
(the source applies the star rewrite first and the slash rewrite second,
wrapping outside it), and both special tags are removed. -/
theorem special_tags_star_slash (text f b bk : List Char)
    (h : parseTagText text = some (f, b, bk))
    (h1 : occursIn starTagL f = true) (h2 : occursIn slashTagL f = true) :
    ∃ q, applyTagsL text = some (q, b) ∧
      occursIn ('/' :: '*' :: b ++ ['*', '/']) q = true ∧
      occursIn starTagL q = false ∧ occursIn slashTagL q = false := by
  obtain ⟨u, v, happ, hu, hv, hfb⟩ := applyTags_master h
  have hq : NoBrk (u ++ finalBody f b ++ v) := noBrk_append (noBrk_append hu hfb) hv
  refine ⟨_, happ, ?_, occursIn_false_of_noBrk hq (by decide),
    occursIn_false_of_noBrk hq (by decide)⟩
  have hfb2 : ∃ w, finalBody f b = w ++ ('/' :: '*' :: b ++ ['*', '/']) := by
    simp only [finalBody, if_pos h1, if_pos h2]
    by_cases h3 : occursIn engTagL f = true
    · rw [if_pos h3]
      exact ⟨engMark, by simp⟩
    · rw [if_neg h3]
      exact ⟨[], by simp⟩
  obtain ⟨w, hw⟩ := hfb2
  rw [occursIn_infix_iff]
  refine ⟨u ++ w, v, ?_⟩
  rw [hw]
  simp

/-- C3 witness: a concrete phrase carrying both special tags in front. -/
theorem special_tags_star_slash_witness :
    ∃ q, applyTagsL "<*></>hi".data = some (q, "hi".data) ∧
      occursIn ('/' :: '*' :: "hi".data ++ ['*', '/']) q = true ∧
      occursIn starTagL q = false ∧ occursIn slashTagL q = false :=
  special_tags_star_slash "<*></>hi".data "<*></>".data "hi".data [] (by decide) (by decide)
    (by decide)

/-- C4 counterexample: a phrase carrying <eng> only among its back tags is
not rewritten: the question text is xeng (the tag merely unwrapped), which
does not begin with the special prefix. -/
theorem eng_back_tag_cex :
    applyTags "x<eng>" = some ("xeng", "x") ∧
    ¬ ("Translate to English: ".data.isPrefixOf "xeng".data = true) :=
  ⟨by decide, by decide⟩

/-- C4 amended: a special tag takes its rewriting effect exactly when it
occurs in the front tag run (the source searches only front_tags); in
particular a phrase with <eng> among its front tags yields a question text
containing "Translate to English: " with the tag removed, while one with
the tag only among its back tags merely has it unwrapped (see the
counterexample). -/
theorem special_tags_front_only (text f b bk : List Char)
    (h : parseTagText text = some (f, b, bk)) (h3 : occursIn engTagL f = true) :
    ∃ q, applyTagsL text = some (q, b) ∧ occursIn engMark q = true ∧
      occursIn engTagL q = false := by
  obtain ⟨u, v, happ, hu, hv, hfb⟩ := applyTags_master h
  have hq : NoBrk (u ++ finalBody f b ++ v) := noBrk_append (noBrk_append hu hfb) hv
  refine ⟨_, happ, ?_, occursIn_false_of_noBrk hq (by decide)⟩
  have hfb2 : ∃ w, finalBody f b = engMark ++ w := by
    simp only [finalBody, if_pos h3]
    exact ⟨_, rfl⟩
  obtain ⟨w, hw⟩ := hfb2
  rw [occursIn_infix_iff]
  refine ⟨u, w ++ v, ?_⟩
  rw [hw]
  simp

/-- C4 witness: a concrete phrase carrying <eng> in its front tag run. -/
theorem special_tags_front_only_witness :
    ∃ q, applyTagsL "<eng>wo ist es".data = some (q, "wo ist es".data) ∧
      occursIn engMark q = true ∧ occursIn engTagL q = false :=
  special_tags_front_only "<eng>wo ist es".data "<eng>".data "wo ist es".data [] (by decide)
    (by decide)

/-! Part K: the tokenizer claims. -/

theorem prefix2_head {a b : Char} {s : List Char} (h : [a, b].isPrefixOf s = true) :
    s.head? = some a := by
  rw [List.isPrefixOf_iff_prefix] at h
  obtain ⟨t, ht⟩ := h
  rw [← ht]
  rfl

theorem prefix1_head {a : Char} {s : List Char} (h : [a].isPrefixOf s = true) :
    s.head? = some a := by
  rw [List.isPrefixOf_iff_prefix] at h
  obtain ⟨t, ht⟩ := h
  rw [← ht]
  rfl

theorem skip_not_start {x : String} (h : lineSkipB x = true) : strStarts "- " x = false := by
  cases hs : strStarts "- " x with
  | false => rfl
  | true =>
      have hhead : x.data.head? = some '-' := prefix2_head hs
      rw [lineSkipB, Bool.or_eq_true, Bool.or_eq_true] at h
      rcases h with (h2 | h2) | h2
      · have := prefix2_head h2
        rw [hhead] at this
        cases this
      · have := prefix1_head h2
        rw [hhead] at this
        cases this
      · rw [pyIsSpaceStr, Bool.and_eq_true] at h2
        cases hx : x.data with
        | nil => rw [hx] at hhead; cases hhead
        | cons c t =>
            rw [hx] at hhead
            have hc : c = '-' := by
              simp only [List.head?_cons, Option.some.injEq] at hhead
              exact hhead
            have hall := h2.2
            rw [List.all_eq_true] at hall
            have := hall c (by rw [hx]; exact List.mem_cons_self _ _)
            rw [hc] at this
            exact absurd this (by decide)

theorem skip_not_term {x : String} (h : lineSkipB x = true) : lineTermB x = false := by
  rw [lineTermB, h]
  simp

theorem start_not_term {x : String} (h : lineStartB x = true) : lineTermB x = false := by
  rw [lineTermB, lineStartB] at *
  rw [h]
  rfl

theorem filter_all_false {α} {p : α → Bool} {l : List α} (h : ∀ x ∈ l, p x = false) :
    l.filter p = [] := by
  induction l with
  | nil => rfl
  | cons a t ih =>
      rw [List.filter_cons, if_neg (by rw [h a (List.mem_cons_self a t)]; simp)]
      exact ih fun x hx => h x (List.mem_cons_of_mem a hx)

theorem bool_false_of_not {b : Bool} (h : ¬ b = true) : b = false := by
  cases b
  · rfl
  · exact absurd rfl h

theorem count_cons_expand (l : String) (ls : List String) :
    ((l :: ls).takeWhile fun x => !lineTermB x).filter lineStartB =
      if lineTermB l = true then []
      else if lineStartB l = true
        then l :: (ls.takeWhile fun x => !lineTermB x).filter lineStartB
        else (ls.takeWhile fun x => !lineTermB x).filter lineStartB := by
  rw [List.takeWhile_cons]
  by_cases ht : lineTermB l = true
  · rw [if_pos ht, ht]
    simp
  · rw [if_neg ht]
    have h2 : (!lineTermB l) = true := by rw [bool_false_of_not ht]; rfl
    rw [if_pos h2, List.filter_cons]

theorem tokLoop_some_ok (ls : List String) : ∀ (f : String) (acc : List String),
    ∃ items, tokLoop (some f) acc ls = .ok items ∧
      items.length = 1 + ((ls.takeWhile fun l => !lineTermB l).filter lineStartB).length := by
  induction ls with
  | nil =>
      intro f acc
      exact ⟨[f ++ joinStr acc], rfl, by simp⟩
  | cons l ls ih =>
      intro f acc
      by_cases h1 : strStarts "- " l = true
      · obtain ⟨items, hres, hlen⟩ := ih l []
        have hterm : lineTermB l = false := start_not_term h1
        refine ⟨(f ++ joinStr acc) :: items, ?_, ?_⟩
        · simp only [tokLoop, if_pos h1, hres]
        · rw [count_cons_expand, if_neg (by rw [hterm]; simp),
            if_pos (show lineStartB l = true from h1)]
          simp only [List.length_cons, hlen]
          omega
      · by_cases h2 : strStarts "  " l = true
        · obtain ⟨items, hres, hlen⟩ := ih f (acc ++ [l])
          have hsk : lineSkipB l = true := by rw [lineSkipB, h2]; simp
          have hterm : lineTermB l = false := skip_not_term hsk
          refine ⟨items, ?_, ?_⟩
          · simp only [tokLoop, if_neg h1, if_pos h2, hres]
          · rw [count_cons_expand, if_neg (by rw [hterm]; simp),
              if_neg (show ¬ lineStartB l = true from h1)]
            exact hlen
        · by_cases h3 : strStarts "#" l = true
          · obtain ⟨items, hres, hlen⟩ := ih f acc
            have hsk : lineSkipB l = true := by rw [lineSkipB, h3]; simp
            have hterm : lineTermB l = false := skip_not_term hsk
            refine ⟨items, ?_, ?_⟩
            · simp only [tokLoop, if_neg h1, if_neg h2, if_pos h3, hres]
            · rw [count_cons_expand, if_neg (by rw [hterm]; simp),
                if_neg (show ¬ lineStartB l = true from h1)]
              exact hlen
          · by_cases h4 : pyIsSpaceStr l = true
            · obtain ⟨items, hres, hlen⟩ := ih f acc
              have hsk : lineSkipB l = true := by rw [lineSkipB, h4]; simp
              have hterm : lineTermB l = false := skip_not_term hsk
              refine ⟨items, ?_, ?_⟩
              · simp only [tokLoop, if_neg h1, if_neg h2, if_neg h3, if_pos h4, hres]
              · rw [count_cons_expand, if_neg (by rw [hterm]; simp),
                  if_neg (show ¬ lineStartB l = true from h1)]
                exact hlen
            · have hterm : lineTermB l = true := by
                rw [lineTermB, lineStartB, lineSkipB, bool_false_of_not h1,
                  bool_false_of_not h2, bool_false_of_not h3, bool_false_of_not h4]
                rfl
              refine ⟨[f ++ joinStr acc], ?_, ?_⟩
              · simp only [tokLoop, if_neg h1, if_neg h2, if_neg h3, if_neg h4]
              · rw [count_cons_expand, if_pos hterm]
                simp

theorem tokLoop_none_skip (pre : List String) (hpre : ∀ x ∈ pre, lineSkipB x = true) :
    ∀ (acc rest : List String), ∃ acc2, tokLoop none acc (pre ++ rest) = tokLoop none acc2 rest := by
  induction pre with
  | nil => intro acc rest; exact ⟨acc, rfl⟩
  | cons x t ih =>
      intro acc rest
      have hx := hpre x (List.mem_cons_self x t)
      have hns : ¬ strStarts "- " x = true := by rw [skip_not_start hx]; simp
      have hpt : ∀ y ∈ t, lineSkipB y = true := fun y hy => hpre y (List.mem_cons_of_mem x hy)
      rw [List.cons_append]
      by_cases hc : strStarts "  " x = true
      · obtain ⟨acc2, hres⟩ := ih hpt (acc ++ [x]) rest
        exact ⟨acc2, by simp only [tokLoop, if_neg hns, if_pos hc]; exact hres⟩
      · by_cases hc2 : strStarts "#" x = true
        · obtain ⟨acc2, hres⟩ := ih hpt acc rest
          exact ⟨acc2, by simp only [tokLoop, if_neg hns, if_neg hc, if_pos hc2]; exact hres⟩
        · have hsp : pyIsSpaceStr x = true := by
            have h3 := hx
            simp only [lineSkipB, Bool.or_eq_true] at h3
            cases h3 with
            | inl h2 =>
                cases h2 with
                | inl h4 => exact absurd h4 hc
                | inr h4 => exact absurd h4 hc2
            | inr h2 => exact h2
          obtain ⟨acc2, hres⟩ := ih hpt acc rest
          exact ⟨acc2, by
            simp only [tokLoop, if_neg hns, if_neg hc, if_neg hc2, if_pos hsp]
            exact hres⟩

/-- C5 counterexample: on the three-line document of the claim the two
items keep their leading item markers, so the claimed texts are wrong. -/
theorem tokenizer_strip_cex :
    tokenizeDoc ["- a\n", "  cont\n", "- b\n"] ≠ .ok ["a\n  cont\n", "b\n"] := by
  decide

/-- C5 amended: tokenizing the document with lines "- a\n", "  cont\n",
"- b\n" yields exactly two items, whose texts are "- a\n  cont\n" and
"- b\n" (the tokenizer keeps the item-start marker; it is stripped later,
by SimplePair._create_flashcards). -/
theorem tokenizer_two_items :
    tokenizeDoc ["- a\n", "  cont\n", "- b\n"] = .ok ["- a\n  cont\n", "- b\n"] := by
  decide

/-- C6 counterexample: on the empty document the iterator does not stop
cleanly: _wnr_current_item is entered with no buffered first line and
"".join raises a TypeError. -/
theorem tokenizer_empty_doc_cex : tokenizeDoc [] = .tErr := by decide

/-- C6 amended: for every document in which an item-start line occurs and
is preceded only by skippable lines (continuations, comments, blanks),
iterating the tokenizer terminates normally: no error is raised, and there
is exactly one item per item-start line before the first terminator line —
in particular the last buffered item is flushed exactly once at
end-of-input or at a terminator.  (On the empty document, and on documents
whose lines are all skippable or that hit a terminator before any item
line, the flush raises a TypeError instead: see the counterexample.) -/
theorem tokenizer_ok_of_start (pre : List String) (l : String) (post : List String)
    (hpre : ∀ x ∈ pre, lineSkipB x = true) (hl : lineStartB l = true) :
    ∃ items, tokenizeDoc (pre ++ l :: post) = .ok items ∧
      items.length = itemsCount (pre ++ l :: post) := by
  obtain ⟨acc2, hphase⟩ := tokLoop_none_skip pre hpre [] (l :: post)
  obtain ⟨items, hres, hlen⟩ := tokLoop_some_ok post l acc2
  have hstep : tokLoop none acc2 (l :: post) = tokLoop (some l) acc2 post := by
    simp only [tokLoop, if_pos (show strStarts "- " l = true from hl)]
  refine ⟨items, ?_, ?_⟩
  · rw [tokenizeDoc, hphase, hstep, hres]
  · rw [hlen, itemsCount]
    rw [takeWhile_append_all _ (fun x hx => by
      show (!lineTermB x) = true
      rw [skip_not_term (hpre x hx)]
      rfl)]
    rw [List.filter_append]
    have hnil : List.filter lineStartB pre = [] :=
      filter_all_false fun x hx => skip_not_start (hpre x hx)
    rw [hnil]
    rw [count_cons_expand, if_neg (by rw [start_not_term hl]; simp), if_pos hl]
    simp only [List.nil_append, List.length_cons, List.length_nil]
    omega

/-- C6 witness: a document with a comment, a blank line, two items and a
trailing continuation line. -/
theorem tokenizer_ok_of_start_witness :
    ∃ items, tokenizeDoc (["# c\n", " \n"] ++ "- a\n" :: ["  x\n", "- b\n"]) = .ok items ∧
      items.length = itemsCount (["# c\n", " \n"] ++ "- a\n" :: ["  x\n", "- b\n"]) :=
  tokenizer_ok_of_start ["# c\n", " \n"] "- a\n" ["  x\n", "- b\n"] (by decide) (by decide)

/-! Part L: the noun grammar claims. -/

theorem ite_some_none_eq {α} {c : Prop} [Decidable c] {x y : α}
    (h : (if c then some x else none) = some y) : c ∧ x = y := by
  by_cases hc : c
  · rw [if_pos hc] at h
    exact ⟨hc, (Option.some.injEq _ _).mp h⟩
  · rw [if_neg hc] at h
    cases h

theorem ite_eq_some {α} {c : Prop} [Decidable c] {x : Option α} {y : α}
    (h : (if c then x else none) = some y) : c ∧ x = some y := by
  by_cases hc : c
  · rw [if_pos hc] at h
    exact ⟨hc, h⟩
  · rw [if_neg hc] at h
    cases h

theorem ite_ne_some {α} {c : Prop} [Decidable c] {x : Option α} {y : α}
    (h : (if c then none else x) = some y) : ¬ c ∧ x = some y := by
  by_cases hc : c
  · rw [if_pos hc] at h
    cases h
  · rw [if_neg hc] at h
    exact ⟨hc, h⟩

theorem parseArticle_sound {s a r : List Char} (h : parseArticle s = some (a, r)) :
    a.length = 3 ∧ s = a ++ r := by
  cases s with
  | nil => cases h
  | cons c1 s1 =>
      cases s1 with
      | nil => cases h
      | cons c2 s2 =>
          cases s2 with
          | nil => cases h
          | cons c3 rest =>
              simp only [parseArticle] at h
              have h2 := (ite_some_none_eq h).2
              obtain ⟨h3, h4⟩ := (Prod.mk.injEq _ _ _ _).mp h2
              rw [← h3, ← h4]
              exact ⟨rfl, rfl⟩

theorem matchForm2_art_len {s a w e t : List Char} (h : matchForm2 s = some (a, w, e, t)) :
    a.length = 3 := by
  simp only [matchForm2] at h
  obtain ⟨-, h⟩ := ite_eq_some h
  obtain ⟨-, h⟩ := ite_eq_some h
  cases hart : parseArticle s.tail.tail with
  | none => rw [hart] at h; cases h
  | some p =>
      obtain ⟨art, r1⟩ := p
      rw [hart] at h
      have hlen := (parseArticle_sound hart).1
      obtain ⟨-, h⟩ := ite_eq_some h
      obtain ⟨-, h⟩ := ite_ne_some h
      obtain ⟨-, h⟩ := ite_eq_some h
      obtain ⟨-, h⟩ := ite_eq_some h
      obtain ⟨-, h⟩ := ite_eq_some h
      obtain ⟨-, h⟩ := ite_eq_some h
      obtain ⟨-, h⟩ := ite_eq_some h
      have h2 := (ite_some_none_eq h).2
      obtain ⟨h3, -⟩ := (Prod.mk.injEq _ _ _ _).mp h2
      rw [← h3]
      exact hlen

theorem drop4_art {a : List Char} (h : a.length = 3) (w : List Char) :
    (a ++ ' ' :: w).drop 4 = w := by
  obtain ⟨x, y, z, rfl⟩ := List.length_eq_three.mp h
  rfl

/-- C7: for every item matched by the second noun form (abbreviated
plural ending), parse_noun returns the plural computed from the ending: a
bare hyphen gives "die " plus the singular word, and an ending with or
without a leading hyphen gives "die " plus the word plus the suffix.  (The
hypotheses state that the first regex failed and the second matched,
exactly the path the source takes.) -/
theorem parse_noun_form2 (item a w e t : List Char)
    (h1 : matchForm1 (pyNormalize item) = none)
    (h2 : matchForm2 (pyNormalize item) = some (a, w, e, t)) :
    parse_nounL item = some ⟨a ++ ' ' :: w,
      some (if e = ['-'] then "die ".data ++ w
            else "die ".data ++ w ++ (if e.head? = some '-' then e.tail else e)), t⟩ := by
  have hlen := matchForm2_art_len h2
  simp only [parse_nounL, h1, h2]
  rw [drop4_art hlen]
  by_cases he : e = ['-']
  · rw [if_pos he, if_pos he]
  · rw [if_neg he, if_neg he]

/-- C7 witness: the noun line "- der Tisch, -e = the table", whose plural
is synthesized as "die Tische". -/
theorem parse_noun_form2_witness :
    parse_nounL "- der Tisch, -e = the table".data = some ⟨"der".data ++ ' ' :: "Tisch".data,
      some (if "-e".data = ['-'] then "die ".data ++ "Tisch".data
            else "die ".data ++ "Tisch".data ++
              (if "-e".data.head? = some '-' then "-e".data.tail else "-e".data)),
      "the table".data⟩ :=
  parse_noun_form2 "- der Tisch, -e = the table".data "der".data "Tisch".data "-e".data
    "the table".data (by decide) (by decide)

/-! Part M: the old-entry marker fallback of parse_item. -/

theorem splitAtFirstEq_cons_ne {c : Char} (h : ¬ c = '=') (s : List Char) :
    splitAtFirstEq (c :: s) = (splitAtFirstEq s).map fun p => (c :: p.1, p.2) := by
  simp only [splitAtFirstEq, if_neg h]

theorem splitAtFirstEq_marker (r : List Char) :
    splitAtFirstEq ('-' :: ' ' :: '(' :: 'o' :: ')' :: r) =
      (splitAtFirstEq r).map fun p => ('-' :: ' ' :: '(' :: 'o' :: ')' :: p.1, p.2) := by
  rw [splitAtFirstEq_cons_ne (by decide), splitAtFirstEq_cons_ne (by decide),
    splitAtFirstEq_cons_ne (by decide), splitAtFirstEq_cons_ne (by decide),
    splitAtFirstEq_cons_ne (by decide)]
  cases splitAtFirstEq r with
  | none => rfl
  | some p => rfl

theorem pyNormalize_marker (rest : List Char) :
    ∃ r, pyNormalize ('-' :: ' ' :: '(' :: 'o' :: ')' :: ' ' :: rest) =
      '-' :: ' ' :: '(' :: 'o' :: ')' :: r := by
  have h : pyWords ('-' :: ' ' :: '(' :: 'o' :: ')' :: ' ' :: rest) =
      ['-'] :: ['(', 'o', ')'] :: pyWords rest := rfl
  simp only [pyNormalize, h]
  cases pyWords rest with
  | nil => exact ⟨[], rfl⟩
  | cons w ws => exact ⟨' ' :: spaceJoin (w :: ws), rfl⟩

theorem parse_nounL_marker {item r : List Char}
    (h : pyNormalize item = '-' :: ' ' :: '(' :: 'o' :: ')' :: r) :
    parse_nounL item = none := by
  simp only [parse_nounL, h]
  rfl

theorem stripRightL_marker (u : List Char) :
    ∃ v, stripRightL ('(' :: 'o' :: ')' :: u) = '(' :: 'o' :: ')' :: v := by
  by_cases hc : (u.reverse.dropWhile isPySpace).isEmpty = true
  · refine ⟨[], ?_⟩
    show (('(' :: 'o' :: ')' :: u).reverse.dropWhile isPySpace).reverse = ['(', 'o', ')']
    rw [show ('(' :: 'o' :: ')' :: u).reverse = u.reverse ++ [')', 'o', '('] from by simp]
    rw [List.dropWhile_append, if_pos hc]
    decide
  · refine ⟨(u.reverse.dropWhile isPySpace).reverse, ?_⟩
    show (('(' :: 'o' :: ')' :: u).reverse.dropWhile isPySpace).reverse =
      '(' :: 'o' :: ')' :: (u.reverse.dropWhile isPySpace).reverse
    rw [show ('(' :: 'o' :: ')' :: u).reverse = u.reverse ++ [')', 'o', '('] from by simp]
    rw [List.dropWhile_append, if_neg hc, List.reverse_append]
    rfl

theorem stripL_marker (u : List Char) :
    ∃ v, stripL ('(' :: 'o' :: ')' :: u) = '(' :: 'o' :: ')' :: v := by
  have h : stripLeftL ('(' :: 'o' :: ')' :: u) = '(' :: 'o' :: ')' :: u := rfl
  obtain ⟨v, hv⟩ := stripRightL_marker u
  refine ⟨v, ?_⟩
  show stripRightL (stripLeftL ('(' :: 'o' :: ')' :: u)) = '(' :: 'o' :: ')' :: v
  rw [h]
  exact hv

theorem parseTagsF_no {s : List Char} (hp : parseTag s = none) (g : Nat) :
    parseTagsF g s = ([], s) := by
  cases g with
  | zero => rfl
  | succ g => simp only [parseTagsF, hp]

theorem applyTagsL_body_marker {u : List Char} {p : List Char × List Char}
    (h : applyTagsL ('(' :: 'o' :: ')' :: u) = some p) :
    ∃ w, p.2 = '(' :: 'o' :: ')' :: w := by
  obtain ⟨f, bk, hpt⟩ := applyTagsL_inv h
  have hp0 : parseTag ('(' :: 'o' :: ')' :: u) = none := rfl
  simp only [parseTagText, parseTagsF_no hp0] at hpt
  obtain ⟨-, hpt⟩ := ite_ne_some hpt
  have h2 := (ite_some_none_eq hpt).2
  obtain ⟨-, h3⟩ := (Prod.mk.injEq _ _ _ _).mp h2
  obtain ⟨h4, -⟩ := (Prod.mk.injEq _ _ _ _).mp h3
  refine ⟨u.takeWhile isBodyChar, ?_⟩
  rw [← h4]
  rfl

theorem simplePair_germanA {item : List Char} {d : SPData} (hd : simplePairL item = some d) :
    ∃ pre post, splitAtFirstEq (pyNormalize item) = some (pre, post) ∧
      applyTagsL (stripL (pre.drop 2)) = some (d.germanQ, d.germanA) := by
  simp only [simplePairL] at hd
  split at hd
  · cases hd
  · rename_i pre post heq
    obtain ⟨-, hd⟩ := ite_ne_some hd
    split at hd
    · rename_i gq ga tq ta heq1 heq2
      cases hd
      exact ⟨pre, post, heq, heq1⟩
    · cases hd

/-- C8: for every item that starts with the old-entry prefix "- (o) " but
whose remainder fails noun parsing, parse_item silently falls through and
classifies the original, still-prefixed item text (here, necessarily, as a
phrase pair, since the marker can never parse as an article): the prefix
is not stripped on fallback, and whenever the phrase pair is built its
German answer side still carries the "(o)" marker. -/
theorem parse_item_old_marker_fallback (item : List Char)
    (h1 : "- (o) ".data.isPrefixOf item = true)
    (h2 : parse_nounL ('-' :: item.drop 5) = none) :
    parse_itemL item = (simplePairL item).map PIRes.pairR ∧
    ∀ d, simplePairL item = some d → ['(', 'o', ')'].isPrefixOf d.germanA = true := by
  obtain ⟨rest, hitem⟩ := List.isPrefixOf_iff_prefix.mp h1
  subst hitem
  obtain ⟨r, hn⟩ := pyNormalize_marker rest
  have hnoun : parse_nounL ("- (o) ".data ++ rest) = none := parse_nounL_marker hn
  constructor
  · simp only [parse_itemL]
    rw [if_pos h1, h2, hnoun]
  · intro d hd
    obtain ⟨pre, post, hsplit0, htags⟩ := simplePair_germanA hd
    have hsplit : splitAtFirstEq (pyNormalize ('-' :: ' ' :: '(' :: 'o' :: ')' :: ' ' :: rest)) =
        some (pre, post) := hsplit0
    rw [hn, splitAtFirstEq_marker r] at hsplit
    cases hsr : splitAtFirstEq r with
    | none => rw [hsr] at hsplit; cases hsplit
    | some p =>
        rw [hsr] at hsplit
        have h3 := (Option.some.injEq _ _).mp hsplit
        obtain ⟨h4, -⟩ := (Prod.mk.injEq _ _ _ _).mp h3
        rw [← h4] at htags
        have hdrop : ('-' :: ' ' :: '(' :: 'o' :: ')' :: p.1).drop 2 = '(' :: 'o' :: ')' :: p.1 :=
          rfl
        rw [hdrop] at htags
        obtain ⟨v, hstrip⟩ := stripL_marker p.1
        rw [hstrip] at htags
        obtain ⟨w, hw⟩ := applyTagsL_body_marker htags
        have hw2 : d.germanA = '(' :: 'o' :: ')' :: w := hw
        rw [hw2]
        simp [List.isPrefixOf]

/-- C8 witness: the item "- (o) hello = world", whose remainder "- hello =
world" is no noun line; the phrase pair built from the original item keeps
the marker on its German side. -/
theorem parse_item_old_marker_fallback_witness :
    "- (o) ".data.isPrefixOf "- (o) hello = world".data = true ∧
    parse_nounL ('-' :: "- (o) hello = world".data.drop 5) = none ∧
    (parse_itemL "- (o) hello = world".data =
        (simplePairL "- (o) hello = world".data).map PIRes.pairR ∧
      ∀ d, simplePairL "- (o) hello = world".data = some d →
        ['(', 'o', ')'].isPrefixOf d.germanA = true) :=
  ⟨by decide, by decide,
    parse_item_old_marker_fallback ("- (o) hello = world".data) (by decide) (by decide)⟩

/-! Part N: fill_paragraph loses the final partial line. -/

/-- C1: the claim fails on the eighty-one character paragraph made of a
forty-letter word, a space and another forty-letter word.  fill_paragraph
wraps after the first word but never appends the line under construction
to the completed lines, so the second word is lost: the result is the
first word alone, whose normalized form differs from the normalized input.
Joining the single line of the result with single spaces is the result
itself, so the round trip of the claim fails as well. -/
theorem fill_paragraph_loses_words :
    fill_paragraphL (List.replicate 40 'a' ++ ' ' :: List.replicate 40 'b') 79 =
      List.replicate 40 'a' ∧
    pyNormalize (fill_paragraphL (List.replicate 40 'a' ++ ' ' :: List.replicate 40 'b') 79) ≠
      pyNormalize (List.replicate 40 'a' ++ ' ' :: List.replicate 40 'b') := by
  decide

/-! Part O: the number codecs round-trip. -/

theorem digitVal_digitChar {m : Nat} (h : m < 10) : digitVal (digitChar m) = m := by
  interval_cases m <;> rfl

theorem isDigitChar_digitChar {m : Nat} (h : m < 10) : isDigitChar (digitChar m) = true := by
  interval_cases m <;> rfl

theorem digitsValAux_append (s1 : List Char) : ∀ (s2 : List Char) (acc : Nat),
    digitsValAux acc (s1 ++ s2) = digitsValAux (digitsValAux acc s1) s2 := by
  induction s1 with
  | nil => intro s2 acc; rfl
  | cons c s1 ih =>
      intro s2 acc
      rw [List.cons_append]
      show digitsValAux (10 * acc + digitVal c) (s1 ++ s2) = _
      rw [ih]
      rfl

theorem natToDigitsF_spec : ∀ (g n : Nat), n < g →
    natToDigitsF g n ≠ [] ∧ (natToDigitsF g n).all isDigitChar = true ∧
      ∀ acc, digitsValAux acc (natToDigitsF g n) = acc * 10 ^ (natToDigitsF g n).length + n := by
  intro g
  induction g with
  | zero => intro n hn; exact absurd hn (Nat.not_lt_zero n)
  | succ g ih =>
      intro n hn
      by_cases h10 : n < 10
      · refine ⟨?_, ?_, ?_⟩
        · show natToDigitsF (g + 1) n ≠ []
          simp [natToDigitsF, if_pos h10]
        · show (natToDigitsF (g + 1) n).all isDigitChar = true
          simp only [natToDigitsF, if_pos h10, List.all_cons, List.all_nil,
            Bool.and_true]
          exact isDigitChar_digitChar h10
        · intro acc
          have hd : natToDigitsF (g + 1) n = [digitChar n] := by
            simp only [natToDigitsF, if_pos h10]
          rw [hd]
          show 10 * acc + digitVal (digitChar n) = acc * 10 ^ ([digitChar n].length) + n
          rw [digitVal_digitChar h10]
          simp only [List.length_cons, List.length_nil, Nat.zero_add, pow_one]
          ring
      · have hdiv : n / 10 < g := by
          have h1 : n / 10 < n := Nat.div_lt_self (by omega) (by omega)
          omega
        obtain ⟨ih1, ih2, ih3⟩ := ih (n / 10) hdiv
        refine ⟨?_, ?_, ?_⟩
        · show natToDigitsF (g + 1) n ≠ []
          simp only [natToDigitsF, if_neg h10]
          simp
        · show (natToDigitsF (g + 1) n).all isDigitChar = true
          simp only [natToDigitsF, if_neg h10, List.all_append, List.all_cons,
            List.all_nil, Bool.and_true, Bool.and_eq_true]
          exact ⟨ih2, isDigitChar_digitChar (Nat.mod_lt n (by omega))⟩
        · intro acc
          have hd : natToDigitsF (g + 1) n = natToDigitsF g (n / 10) ++ [digitChar (n % 10)] := by
            simp only [natToDigitsF, if_neg h10]
          rw [hd, digitsValAux_append]
          show 10 * digitsValAux acc (natToDigitsF g (n / 10)) + digitVal (digitChar (n % 10)) =
            acc * 10 ^ ((natToDigitsF g (n / 10) ++ [digitChar (n % 10)]).length) + n
          rw [ih3 acc, digitVal_digitChar (Nat.mod_lt n (by omega)), List.length_append]
          simp only [List.length_cons, List.length_nil, Nat.zero_add, pow_succ]
          have hmod := Nat.div_add_mod n 10
          ring_nf
          omega

theorem natReprL_ne_nil (n : Nat) : natReprL n ≠ [] :=
  (natToDigitsF_spec (n + 1) n (Nat.lt_succ_self n)).1

theorem natReprL_all_digit (n : Nat) : (natReprL n).all isDigitChar = true :=
  (natToDigitsF_spec (n + 1) n (Nat.lt_succ_self n)).2.1

theorem digitsVal_natReprL (n : Nat) : digitsVal (natReprL n) = n := by
  have h := (natToDigitsF_spec (n + 1) n (Nat.lt_succ_self n)).2.2 0
  simpa [digitsVal, natReprL] using h

theorem parseDigits_natReprL (n : Nat) : parseDigits (natReprL n) = some n := by
  have h1 : (natReprL n).isEmpty = false := by
    cases h : natReprL n with
    | nil => exact absurd h (natReprL_ne_nil n)
    | cons c t => rfl
  simp only [parseDigits, h1, natReprL_all_digit n, Bool.not_false, Bool.true_and, if_pos,
    digitsVal_natReprL n]

theorem natReprL_head_digit (n : Nat) :
    ∃ c t, natReprL n = c :: t ∧ isDigitChar c = true := by
  cases h : natReprL n with
  | nil => exact absurd h (natReprL_ne_nil n)
  | cons c t =>
      refine ⟨c, t, rfl, ?_⟩
      have h2 := natReprL_all_digit n
      rw [h, List.all_cons, Bool.and_eq_true] at h2
      exact h2.1

theorem parseIntL_intReprL (i : Int) : parseIntL (intReprL i) = some i := by
  by_cases hi : i < 0
  · have hrepr : intReprL i = '-' :: natReprL (-i).toNat := by
      simp only [intReprL, if_pos hi]
    have hcond : ('-' :: natReprL (-i).toNat).head? = some '-' := rfl
    rw [hrepr, parseIntL, if_pos hcond]
    show (parseDigits (natReprL (-i).toNat)).map (fun (n : Nat) => -(n : Int)) = some i
    rw [parseDigits_natReprL]
    simp only [Option.map_some', Option.some.injEq]
    omega
  · simp only [intReprL, if_neg hi]
    obtain ⟨c, t, hct, hdig⟩ := natReprL_head_digit i.toNat
    have hne : ¬ ((natReprL i.toNat).head? = some '-') := by
      rw [hct]
      simp only [List.head?, Option.some.injEq]
      intro hc
      rw [hc] at hdig
      exact absurd hdig (by decide)
    rw [parseIntL, if_neg hne, parseDigits_natReprL]
    simp only [Option.map_some', Option.some.injEq]
    omega

theorem isValChar_of_digit {c : Char} (h : isDigitChar c = true) : isValChar c = true := by
  simp only [isDigitChar] at h
  simp only [isValChar, isWordChar, Char.isAlphanum, Bool.or_eq_true]
  tauto

theorem not_space_of_digit {c : Char} (h : isDigitChar c = true) : isPySpace c = false := by
  cases hs : isPySpace c with
  | false => rfl
  | true =>
      exfalso
      simp only [isPySpace, Bool.or_eq_true, decide_eq_true_eq] at hs
      rcases hs with ((((h1 | h1) | h1) | h1) | h1) | h1 <;> subst h1 <;>
        exact absurd h (by decide)

theorem dropWhile_of_all_neg {p : Char → Bool} {l : List Char} (h : ∀ c ∈ l, p c = false) :
    l.dropWhile p = l := by
  cases l with
  | nil => rfl
  | cons c t =>
      rw [List.dropWhile_cons, h c (List.mem_cons_self c t)]
      simp

theorem takeWhile_of_all {p : Char → Bool} {l : List Char} (h : ∀ c ∈ l, p c = true) :
    l.takeWhile p = l := by
  induction l with
  | nil => rfl
  | cons c t ih =>
      rw [List.takeWhile_cons, h c (List.mem_cons_self c t)]
      simp only [if_pos]
      rw [ih fun c hc => h c (List.mem_cons_of_mem _ hc)]

theorem stripRightL_of_no_space {l : List Char} (h : ∀ c ∈ l, isPySpace c = false) :
    stripRightL l = l := by
  show (l.reverse.dropWhile isPySpace).reverse = l
  rw [dropWhile_of_all_neg fun c hc => h c (List.mem_reverse.mp hc), List.reverse_reverse]

theorem stripL_of_no_space {l : List Char} (h : ∀ c ∈ l, isPySpace c = false) :
    stripL l = l := by
  show stripRightL (stripLeftL l) = l
  rw [show stripLeftL l = l from dropWhile_of_all_neg h, stripRightL_of_no_space h]

theorem natReprL_mem_digit {n : Nat} {c : Char} (hc : c ∈ natReprL n) : isDigitChar c = true :=
  List.all_eq_true.mp (natReprL_all_digit n) c hc

theorem intReprL_ne_nil (i : Int) : intReprL i ≠ [] := by
  by_cases hi : i < 0
  · simp [intReprL, if_pos hi]
  · simp only [intReprL, if_neg hi]
    exact natReprL_ne_nil _

theorem intReprL_mem_val {i : Int} {c : Char} (hc : c ∈ intReprL i) : isValChar c = true := by
  by_cases hi : i < 0
  · simp only [intReprL, if_pos hi] at hc
    rcases List.mem_cons.mp hc with h | h
    · subst h; decide
    · exact isValChar_of_digit (natReprL_mem_digit h)
  · simp only [intReprL, if_neg hi] at hc
    exact isValChar_of_digit (natReprL_mem_digit hc)

theorem intReprL_mem_space {i : Int} {c : Char} (hc : c ∈ intReprL i) : isPySpace c = false := by
  by_cases hi : i < 0
  · simp only [intReprL, if_pos hi] at hc
    rcases List.mem_cons.mp hc with h | h
    · subst h; decide
    · exact not_space_of_digit (natReprL_mem_digit h)
  · simp only [intReprL, if_neg hi] at hc
    exact not_space_of_digit (natReprL_mem_digit hc)

theorem floatReprL_ne_nil (x : PyFloat) : floatReprL x ≠ [] := by
  simp only [floatReprL]
  intro h
  rw [List.append_assoc] at h
  rcases List.append_eq_nil.mp h with ⟨-, h2⟩
  rcases List.append_eq_nil.mp h2 with ⟨h3, -⟩
  exact natReprL_ne_nil _ h3

theorem floatReprL_mem_val {x : PyFloat} (hx : FracOK x) {c : Char} (hc : c ∈ floatReprL x) :
    isValChar c = true := by
  simp only [floatReprL] at hc
  rw [List.append_assoc, List.mem_append] at hc
  rcases hc with h | h
  · by_cases hn : x.neg = true
    · rw [if_pos hn] at h
      rcases List.mem_singleton.mp h with rfl
      decide
    · rw [if_neg hn] at h
      cases h
  · rcases List.mem_append.mp h with h2 | h2
    · exact isValChar_of_digit (natReprL_mem_digit h2)
    · rcases List.mem_cons.mp h2 with h3 | h3
      · subst h3; decide
      · exact isValChar_of_digit (List.all_eq_true.mp hx.2 c h3)

theorem floatReprL_mem_space {x : PyFloat} (hx : FracOK x) {c : Char} (hc : c ∈ floatReprL x) :
    isPySpace c = false := by
  simp only [floatReprL] at hc
  rw [List.append_assoc, List.mem_append] at hc
  rcases hc with h | h
  · by_cases hn : x.neg = true
    · rw [if_pos hn] at h
      rcases List.mem_singleton.mp h with rfl
      decide
    · rw [if_neg hn] at h
      cases h
  · rcases List.mem_append.mp h with h2 | h2
    · exact not_space_of_digit (natReprL_mem_digit h2)
    · rcases List.mem_cons.mp h2 with h3 | h3
      · subst h3; decide
      · exact not_space_of_digit (List.all_eq_true.mp hx.2 c h3)

theorem dropWhile_of_all_pos {p : Char → Bool} {l : List Char} (h : ∀ c ∈ l, p c = true) :
    l.dropWhile p = [] := by
  induction l with
  | nil => rfl
  | cons c t ih =>
      rw [List.dropWhile_cons, h c (List.mem_cons_self c t)]
      simp only [if_pos]
      exact ih fun c hc => h c (List.mem_cons_of_mem _ hc)

theorem parsePosFloat_repr (ip : Nat) (frac : List Char) (h1 : frac ≠ [])
    (h2 : frac.all isDigitChar = true) :
    parsePosFloat (natReprL ip ++ '.' :: frac) = some ⟨false, ip, frac⟩ := by
  have htake : (natReprL ip ++ '.' :: frac).takeWhile isDigitChar = natReprL ip := by
    rw [List.takeWhile_append, if_pos]
    · rw [List.takeWhile_cons, if_neg (by decide : ¬ (isDigitChar '.' = true))]
      simp
    · rw [takeWhile_of_all fun c hc => natReprL_mem_digit hc]
  have hdrop : (natReprL ip ++ '.' :: frac).dropWhile isDigitChar = '.' :: frac := by
    rw [List.dropWhile_append, if_pos]
    · rw [List.dropWhile_cons, if_neg (by decide : ¬ (isDigitChar '.' = true))]
    · rw [dropWhile_of_all_pos fun c hc => natReprL_mem_digit hc]
      rfl
  have hie : ¬ ((natReprL ip).isEmpty = true) := fun h =>
    natReprL_ne_nil ip (List.isEmpty_iff.mp h)
  have hfe : frac.isEmpty = false := by
    cases hf : frac with
    | nil => exact absurd hf h1
    | cons a t => rfl
  have hcond : (!frac.isEmpty && frac.all isDigitChar) = true := by
    rw [hfe, h2]
    rfl
  simp only [parsePosFloat, htake, hdrop, List.head?_cons, List.tail_cons]
  rw [if_neg hie, if_pos hcond, digitsVal_natReprL]
  simp

theorem parseFloatL_repr (x : PyFloat) (hx : FracOK x) : parseFloatL (floatReprL x) = some x := by
  obtain ⟨neg, ip, frac⟩ := x
  obtain ⟨h1, h2⟩ := hx
  cases neg with
  | false =>
      have hrepr : floatReprL ⟨false, ip, frac⟩ = natReprL ip ++ '.' :: frac := by
        simp [floatReprL]
      rw [hrepr, parseFloatL]
      obtain ⟨c, t, hct, hdig⟩ := natReprL_head_digit ip
      have hne : ¬ ((natReprL ip ++ '.' :: frac).head? = some '-') := by
        rw [hct]
        simp only [List.cons_append, List.head?_cons, Option.some.injEq]
        intro hc
        subst hc
        exact absurd hdig (by decide)
      rw [if_neg hne, parsePosFloat_repr ip frac h1 h2]
  | true =>
      have hrepr : floatReprL ⟨true, ip, frac⟩ = '-' :: (natReprL ip ++ '.' :: frac) := by
        simp [floatReprL]
      have hco : ('-' :: (natReprL ip ++ '.' :: frac)).head? = some '-' := rfl
      rw [hrepr, parseFloatL, if_pos hco, List.tail_cons, parsePosFloat_repr ip frac h1 h2]
      rfl

/-! Part P: how one written metadata line passes through the loop body. -/

theorem stripRightL_newline (x : List Char) : stripRightL (x ++ ['\n']) = stripRightL x := by
  show ((x ++ ['\n']).reverse.dropWhile isPySpace).reverse = _
  rw [List.reverse_append]
  show (('\n' :: x.reverse).dropWhile isPySpace).reverse = _
  rw [List.dropWhile_cons, if_pos (by decide : isPySpace '\n' = true)]
  rfl

theorem stripRightL_keep {v : List Char} (x : List Char) (hv : v ≠ [])
    (hvr : stripRightL v = v) : stripRightL (x ++ v) = x ++ v := by
  have hrev : v.reverse.dropWhile isPySpace = v.reverse := by
    calc v.reverse.dropWhile isPySpace
        = ((v.reverse.dropWhile isPySpace).reverse).reverse := (List.reverse_reverse _).symm
      _ = v.reverse := by rw [show (v.reverse.dropWhile isPySpace).reverse = v from hvr]
  have hne : (v.reverse.dropWhile isPySpace).isEmpty = false := by
    rw [hrev]
    cases hv2 : v.reverse with
    | nil =>
        exfalso
        exact hv (by rw [← List.reverse_reverse v, hv2]; rfl)
    | cons a t => rfl
  have hne2 : ¬ ((v.reverse.dropWhile isPySpace).isEmpty = true) := by
    rw [hne]
    simp
  show ((x ++ v).reverse.dropWhile isPySpace).reverse = x ++ v
  rw [List.reverse_append, List.dropWhile_append, if_neg hne2, hrev, List.reverse_append,
    List.reverse_reverse, List.reverse_reverse]

theorem strip_both {v : List Char} (h : stripL v = v) :
    stripLeftL v = v ∧ stripRightL v = v := by
  have hsuf1 : stripLeftL v <:+ v := List.dropWhile_suffix _
  have hlen1 : (stripLeftL v).length ≤ v.length := hsuf1.length_le
  have hlen2 : (stripRightL (stripLeftL v)).length ≤ (stripLeftL v).length := by
    show ((stripLeftL v).reverse.dropWhile isPySpace).reverse.length ≤ _
    rw [List.length_reverse]
    calc ((stripLeftL v).reverse.dropWhile isPySpace).length
        ≤ (stripLeftL v).reverse.length := (List.dropWhile_suffix _).length_le
      _ = (stripLeftL v).length := List.length_reverse _
  have h3 : (stripRightL (stripLeftL v)).length = v.length := congrArg List.length h
  have hlen : (stripLeftL v).length = v.length := by omega
  have hleft : stripLeftL v = v := hsuf1.eq_of_length hlen
  have h2 : stripRightL (stripLeftL v) = v := h
  rw [hleft] at h2
  exact ⟨hleft, h2⟩

theorem stripL_cons_space {w : List Char} (h : stripL w = w) : stripL (' ' :: w) = w := by
  show stripRightL (stripLeftL (' ' :: w)) = w
  rw [show stripLeftL (' ' :: w) = stripLeftL w from by
    show List.dropWhile _ _ = _
    rw [List.dropWhile_cons, if_pos (by decide : isPySpace ' ' = true)]
    rfl]
  exact h

theorem stripL_meta (c : Char) (mid v : List Char) (hc : isPySpace c = false)
    (hv : v ≠ []) (hvr : stripRightL v = v) :
    stripL (' ' :: ' ' :: ' ' :: ' ' :: c :: (mid ++ (v ++ ['\n']))) = c :: (mid ++ v) := by
  have hsp : isPySpace ' ' = true := by decide
  have hcn : ¬ (isPySpace c = true) := by
    rw [hc]
    simp
  have h1 : stripLeftL (' ' :: ' ' :: ' ' :: ' ' :: c :: (mid ++ (v ++ ['\n']))) =
      c :: (mid ++ (v ++ ['\n'])) := by
    show List.dropWhile isPySpace _ = _
    rw [List.dropWhile_cons, if_pos hsp, List.dropWhile_cons, if_pos hsp,
      List.dropWhile_cons, if_pos hsp, List.dropWhile_cons, if_pos hsp,
      List.dropWhile_cons, if_neg hcn]
  show stripRightL (stripLeftL _) = _
  rw [h1]
  have h2 : c :: (mid ++ (v ++ ['\n'])) = ((c :: mid) ++ v) ++ ['\n'] := by simp
  rw [h2, stripRightL_newline, stripRightL_keep (c :: mid) hv hvr]
  rfl

theorem ne_of_take_ne (n : Nat) {l1 l2 : List Char} (h : ¬ (l1.take n = l2.take n)) :
    ¬ (l1 = l2) := fun he => h (by rw [he])

theorem bool_neq_true {b : Bool} (h : b = false) : ¬ (b = true) := by
  rw [h]
  simp

theorem ne_take (n : Nat) {l1 l2 : List Char} (w1 w2 : List Char)
    (h1 : l1.take n = w1) (h2 : l2.take n = w2) (hne : ¬ (w1 = w2)) : ¬ (l1 = l2) := by
  intro he
  rw [he] at h1
  exact hne (h1.symm.trans h2)

theorem extractLine_prop_general (st : PState) (nm mid w : List Char)
    (hw1 : w ≠ []) (hR : stripRightL w = w)
    (hne1 : ¬ (':' :: (mid ++ w) = ":PROPERTIES:".data))
    (hne2 : ¬ (':' :: (mid ++ w) = ":END:".data))
    (hne4 : ¬ ("SCHEDULED:".data.isPrefixOf (':' :: (mid ++ w)) = true))
    (hmp : matchPropLine (':' :: (mid ++ w)) = some (nm, ' ' :: w))
    (hsw : stripL (' ' :: w) = w) :
    extractLine st (' ' :: ' ' :: ' ' :: ' ' :: ':' :: (mid ++ (w ++ ['\n']))) =
      extractProp st nm w := by
  have hline := stripL_meta ':' mid w (by decide) hw1 hR
  simp only [extractLine]
  rw [hline, if_neg hne1, if_neg hne2,
    if_neg (show ¬ ((':' :: (mid ++ w)).isEmpty = true) from by simp),
    if_neg hne4, hmp]
  show extractProp st nm (stripL (' ' :: w)) = _
  rw [hsw]

theorem extractLine_ev (st : PState) (e : PropEv) (he : validEv e) :
    extractLine st (renderEv e) = .cont (applyEv st e) := by
  cases e with
  | evSched v =>
      obtain ⟨hv1, hv2, hv3⟩ := he
      have hR := (strip_both hv2).2
      have hline : stripL (renderEv (.evSched v)) = 'S' :: ("CHEDULED: ".data ++ v) := by
        rw [show renderEv (.evSched v) =
            ' ' :: ' ' :: ' ' :: ' ' :: 'S' :: ("CHEDULED: ".data ++ (v ++ ['\n'])) from by
          show "    SCHEDULED: ".data ++ v ++ ['\n'] = _
          rw [List.append_assoc]; rfl]
        rw [stripL_meta 'S' ("CHEDULED: ".data) v (by decide) hv1 hR]
      have hsv : stripL (' ' :: v) = v := stripL_cons_space hv2
      show extractLine st (renderEv (.evSched v)) = .cont { st with sched := some v }
      simp only [extractLine]
      rw [hline]
      rw [if_neg (show ¬ ('S' :: ("CHEDULED: ".data ++ v) = ":PROPERTIES:".data) from
          ne_take 1 ['S'] [':'] rfl rfl (by decide)),
        if_neg (show ¬ ('S' :: ("CHEDULED: ".data ++ v) = ":END:".data) from
          ne_take 1 ['S'] [':'] rfl rfl (by decide)),
        if_neg (show ¬ (('S' :: ("CHEDULED: ".data ++ v)).isEmpty = true) from by simp),
        if_pos (show
          "SCHEDULED:".data.isPrefixOf ('S' :: ("CHEDULED: ".data ++ v)) = true from rfl)]
      show StepRes.cont { st with sched := some (stripL (' ' :: v)) } =
        StepRes.cont { st with sched := some v }
      rw [hsv]
  | evID v =>
      obtain ⟨hv1, hv2, hv3⟩ := he
      have hR := (strip_both hv2).2
      have hvtake : v.takeWhile isValChar = v := takeWhile_of_all fun c hc => (hv3 c hc).1
      have hgen := extractLine_prop_general st ("ID".data) ("ID: ".data) v hv1 hR
        (ne_take 2 [':', 'I'] [':', 'P'] rfl rfl (by decide))
        (ne_take 2 [':', 'I'] [':', 'E'] rfl rfl (by decide)) (bool_neq_true rfl)
        (by rw [show matchPropLine (':' :: ("ID: ".data ++ v)) =
              some ("ID".data, ' ' :: v.takeWhile isValChar) from rfl, hvtake])
        (stripL_cons_space hv2)
      rw [show renderEv (.evID v) =
          ' ' :: ' ' :: ' ' :: ' ' :: ':' :: ("ID: ".data ++ (v ++ ['\n'])) from by
        show "    :ID: ".data ++ v ++ ['\n'] = _
        rw [List.append_assoc]; rfl]
      rw [hgen]
      rfl
  | evDLR v =>
      obtain ⟨hv1, hv2, hv3⟩ := he
      have hR := (strip_both hv2).2
      have hvtake : v.takeWhile isValChar = v := takeWhile_of_all fun c hc => (hv3 c hc).1
      have hgen := extractLine_prop_general st ("DRILL_LAST_REVIEWED".data)
        ("DRILL_LAST_REVIEWED: ".data) v hv1 hR
        (ne_take 2 [':', 'D'] [':', 'P'] rfl rfl (by decide))
        (ne_take 2 [':', 'D'] [':', 'E'] rfl rfl (by decide)) (bool_neq_true rfl)
        (by rw [show matchPropLine (':' :: ("DRILL_LAST_REVIEWED: ".data ++ v)) =
              some ("DRILL_LAST_REVIEWED".data, ' ' :: v.takeWhile isValChar) from rfl, hvtake])
        (stripL_cons_space hv2)
      rw [show renderEv (.evDLR v) =
          ' ' :: ' ' :: ' ' :: ' ' :: ':' :: ("DRILL_LAST_REVIEWED: ".data ++ (v ++ ['\n'])) from by
        show "    :DRILL_LAST_REVIEWED: ".data ++ v ++ ['\n'] = _
        rw [List.append_assoc]; rfl]
      rw [hgen]
      rfl
  | evDLI x =>
      have hw1 := floatReprL_ne_nil x
      have hsp : ∀ c ∈ floatReprL x, isPySpace c = false := fun c hc => floatReprL_mem_space he hc
      have hR := stripRightL_of_no_space hsp
      have hvtake : (floatReprL x).takeWhile isValChar = floatReprL x :=
        takeWhile_of_all fun c hc => floatReprL_mem_val he hc
      have hgen := extractLine_prop_general st ("DRILL_LAST_INTERVAL".data)
        ("DRILL_LAST_INTERVAL: ".data) (floatReprL x) hw1 hR
        (ne_take 2 [':', 'D'] [':', 'P'] rfl rfl (by decide))
        (ne_take 2 [':', 'D'] [':', 'E'] rfl rfl (by decide)) (bool_neq_true rfl)
        (by rw [show matchPropLine (':' :: ("DRILL_LAST_INTERVAL: ".data ++ floatReprL x)) =
              some ("DRILL_LAST_INTERVAL".data,
                ' ' :: (floatReprL x).takeWhile isValChar) from rfl, hvtake])
        (stripL_cons_space (stripL_of_no_space hsp))
      rw [show renderEv (.evDLI x) =
          ' ' :: ' ' :: ' ' :: ' ' :: ':' ::
            ("DRILL_LAST_INTERVAL: ".data ++ (floatReprL x ++ ['\n'])) from by
        show "    :DRILL_LAST_INTERVAL: ".data ++ floatReprL x ++ ['\n'] = _
        rw [List.append_assoc]; rfl]
      rw [hgen]
      rw [show extractProp st ("DRILL_LAST_INTERVAL".data) (floatReprL x) =
          (match parseFloatL (floatReprL x) with
           | some y => StepRes.cont { st with dli := some y }
           | none => StepRes.stop (.error .valueErr)) from rfl]
      rw [parseFloatL_repr x he]
      rfl
  | evDAQ x =>
      have hw1 := floatReprL_ne_nil x
      have hsp : ∀ c ∈ floatReprL x, isPySpace c = false := fun c hc => floatReprL_mem_space he hc
      have hR := stripRightL_of_no_space hsp
      have hvtake : (floatReprL x).takeWhile isValChar = floatReprL x :=
        takeWhile_of_all fun c hc => floatReprL_mem_val he hc
      have hgen := extractLine_prop_general st ("DRILL_AVERAGE_QUALITY".data)
        ("DRILL_AVERAGE_QUALITY: ".data) (floatReprL x) hw1 hR
        (ne_take 2 [':', 'D'] [':', 'P'] rfl rfl (by decide))
        (ne_take 2 [':', 'D'] [':', 'E'] rfl rfl (by decide)) (bool_neq_true rfl)
        (by rw [show matchPropLine (':' :: ("DRILL_AVERAGE_QUALITY: ".data ++ floatReprL x)) =
              some ("DRILL_AVERAGE_QUALITY".data,
                ' ' :: (floatReprL x).takeWhile isValChar) from rfl, hvtake])
        (stripL_cons_space (stripL_of_no_space hsp))
      rw [show renderEv (.evDAQ x) =
          ' ' :: ' ' :: ' ' :: ' ' :: ':' ::
            ("DRILL_AVERAGE_QUALITY: ".data ++ (floatReprL x ++ ['\n'])) from by
        show "    :DRILL_AVERAGE_QUALITY: ".data ++ floatReprL x ++ ['\n'] = _
        rw [List.append_assoc]; rfl]
      rw [hgen]
      rw [show extractProp st ("DRILL_AVERAGE_QUALITY".data) (floatReprL x) =
          (match parseFloatL (floatReprL x) with
           | some y => StepRes.cont { st with daq := some y }
           | none => StepRes.stop (.error .valueErr)) from rfl]
      rw [parseFloatL_repr x he]
      rfl
  | evDE x =>
      have hw1 := floatReprL_ne_nil x
      have hsp : ∀ c ∈ floatReprL x, isPySpace c = false := fun c hc => floatReprL_mem_space he hc
      have hR := stripRightL_of_no_space hsp
      have hvtake : (floatReprL x).takeWhile isValChar = floatReprL x :=
        takeWhile_of_all fun c hc => floatReprL_mem_val he hc
      have hgen := extractLine_prop_general st ("DRILL_EASE".data)
        ("DRILL_EASE: ".data) (floatReprL x) hw1 hR
        (ne_take 2 [':', 'D'] [':', 'P'] rfl rfl (by decide))
        (ne_take 2 [':', 'D'] [':', 'E'] rfl rfl (by decide)) (bool_neq_true rfl)
        (by rw [show matchPropLine (':' :: ("DRILL_EASE: ".data ++ floatReprL x)) =
              some ("DRILL_EASE".data,
                ' ' :: (floatReprL x).takeWhile isValChar) from rfl, hvtake])
        (stripL_cons_space (stripL_of_no_space hsp))
      rw [show renderEv (.evDE x) =
          ' ' :: ' ' :: ' ' :: ' ' :: ':' ::
            ("DRILL_EASE: ".data ++ (floatReprL x ++ ['\n'])) from by
        show "    :DRILL_EASE: ".data ++ floatReprL x ++ ['\n'] = _
        rw [List.append_assoc]; rfl]
      rw [hgen]
      rw [show extractProp st ("DRILL_EASE".data) (floatReprL x) =
          (match parseFloatL (floatReprL x) with
           | some y => StepRes.cont { st with de := some y }
           | none => StepRes.stop (.error .valueErr)) from rfl]
      rw [parseFloatL_repr x he]
      rfl
  | evDRSF n =>
      have hw1 := intReprL_ne_nil n
      have hsp : ∀ c ∈ intReprL n, isPySpace c = false := fun c hc => intReprL_mem_space hc
      have hR := stripRightL_of_no_space hsp
      have hvtake : (intReprL n).takeWhile isValChar = intReprL n :=
        takeWhile_of_all fun c hc => intReprL_mem_val hc
      have hgen := extractLine_prop_general st ("DRILL_REPEATS_SINCE_FAIL".data)
        ("DRILL_REPEATS_SINCE_FAIL: ".data) (intReprL n) hw1 hR
        (ne_take 2 [':', 'D'] [':', 'P'] rfl rfl (by decide))
        (ne_take 2 [':', 'D'] [':', 'E'] rfl rfl (by decide)) (bool_neq_true rfl)
        (by rw [show matchPropLine (':' :: ("DRILL_REPEATS_SINCE_FAIL: ".data ++ intReprL n)) =
              some ("DRILL_REPEATS_SINCE_FAIL".data,
                ' ' :: (intReprL n).takeWhile isValChar) from rfl, hvtake])
        (stripL_cons_space (stripL_of_no_space hsp))
      rw [show renderEv (.evDRSF n) =
          ' ' :: ' ' :: ' ' :: ' ' :: ':' ::
            ("DRILL_REPEATS_SINCE_FAIL: ".data ++ (intReprL n ++ ['\n'])) from by
        show "    :DRILL_REPEATS_SINCE_FAIL: ".data ++ intReprL n ++ ['\n'] = _
        rw [List.append_assoc]; rfl]
      rw [hgen]
      rw [show extractProp st ("DRILL_REPEATS_SINCE_FAIL".data) (intReprL n) =
          (match parseIntL (intReprL n) with
           | some m => StepRes.cont { st with drsf := some m }
           | none => StepRes.stop (.error .valueErr)) from rfl]
      rw [parseIntL_intReprL]
      rfl
  | evDTR n =>
      have hw1 := intReprL_ne_nil n
      have hsp : ∀ c ∈ intReprL n, isPySpace c = false := fun c hc => intReprL_mem_space hc
      have hR := stripRightL_of_no_space hsp
      have hvtake : (intReprL n).takeWhile isValChar = intReprL n :=
        takeWhile_of_all fun c hc => intReprL_mem_val hc
      have hgen := extractLine_prop_general st ("DRILL_TOTAL_REPEATS".data)
        ("DRILL_TOTAL_REPEATS: ".data) (intReprL n) hw1 hR
        (ne_take 2 [':', 'D'] [':', 'P'] rfl rfl (by decide))
        (ne_take 2 [':', 'D'] [':', 'E'] rfl rfl (by decide)) (bool_neq_true rfl)
        (by rw [show matchPropLine (':' :: ("DRILL_TOTAL_REPEATS: ".data ++ intReprL n)) =
              some ("DRILL_TOTAL_REPEATS".data,
                ' ' :: (intReprL n).takeWhile isValChar) from rfl, hvtake])
        (stripL_cons_space (stripL_of_no_space hsp))
      rw [show renderEv (.evDTR n) =
          ' ' :: ' ' :: ' ' :: ' ' :: ':' ::
            ("DRILL_TOTAL_REPEATS: ".data ++ (intReprL n ++ ['\n'])) from by
        show "    :DRILL_TOTAL_REPEATS: ".data ++ intReprL n ++ ['\n'] = _
        rw [List.append_assoc]; rfl]
      rw [hgen]
      rw [show extractProp st ("DRILL_TOTAL_REPEATS".data) (intReprL n) =
          (match parseIntL (intReprL n) with
           | some m => StepRes.cont { st with dtr := some m }
           | none => StepRes.stop (.error .valueErr)) from rfl]
      rw [parseIntL_intReprL]
      rfl
  | evDFC n =>
      have hw1 := intReprL_ne_nil n
      have hsp : ∀ c ∈ intReprL n, isPySpace c = false := fun c hc => intReprL_mem_space hc
      have hR := stripRightL_of_no_space hsp
      have hvtake : (intReprL n).takeWhile isValChar = intReprL n :=
        takeWhile_of_all fun c hc => intReprL_mem_val hc
      have hgen := extractLine_prop_general st ("DRILL_FAILURE_COUNT".data)
        ("DRILL_FAILURE_COUNT: ".data) (intReprL n) hw1 hR
        (ne_take 2 [':', 'D'] [':', 'P'] rfl rfl (by decide))
        (ne_take 2 [':', 'D'] [':', 'E'] rfl rfl (by decide)) (bool_neq_true rfl)
        (by rw [show matchPropLine (':' :: ("DRILL_FAILURE_COUNT: ".data ++ intReprL n)) =
              some ("DRILL_FAILURE_COUNT".data,
                ' ' :: (intReprL n).takeWhile isValChar) from rfl, hvtake])
        (stripL_cons_space (stripL_of_no_space hsp))
      rw [show renderEv (.evDFC n) =
          ' ' :: ' ' :: ' ' :: ' ' :: ':' ::
            ("DRILL_FAILURE_COUNT: ".data ++ (intReprL n ++ ['\n'])) from by
        show "    :DRILL_FAILURE_COUNT: ".data ++ intReprL n ++ ['\n'] = _
        rw [List.append_assoc]; rfl]
      rw [hgen]
      rw [show extractProp st ("DRILL_FAILURE_COUNT".data) (intReprL n) =
          (match parseIntL (intReprL n) with
           | some m => StepRes.cont { st with dfc := some m }
           | none => StepRes.stop (.error .valueErr)) from rfl]
      rw [parseIntL_intReprL]
      rfl
  | evDLQ n =>
      have hw1 := intReprL_ne_nil n
      have hsp : ∀ c ∈ intReprL n, isPySpace c = false := fun c hc => intReprL_mem_space hc
      have hR := stripRightL_of_no_space hsp
      have hvtake : (intReprL n).takeWhile isValChar = intReprL n :=
        takeWhile_of_all fun c hc => intReprL_mem_val hc
      have hgen := extractLine_prop_general st ("DRILL_LAST_QUALITY".data)
        ("DRILL_LAST_QUALITY: ".data) (intReprL n) hw1 hR
        (ne_take 2 [':', 'D'] [':', 'P'] rfl rfl (by decide))
        (ne_take 2 [':', 'D'] [':', 'E'] rfl rfl (by decide)) (bool_neq_true rfl)
        (by rw [show matchPropLine (':' :: ("DRILL_LAST_QUALITY: ".data ++ intReprL n)) =
              some ("DRILL_LAST_QUALITY".data,
                ' ' :: (intReprL n).takeWhile isValChar) from rfl, hvtake])
        (stripL_cons_space (stripL_of_no_space hsp))
      rw [show renderEv (.evDLQ n) =
          ' ' :: ' ' :: ' ' :: ' ' :: ':' ::
            ("DRILL_LAST_QUALITY: ".data ++ (intReprL n ++ ['\n'])) from by
        show "    :DRILL_LAST_QUALITY: ".data ++ intReprL n ++ ['\n'] = _
        rw [List.append_assoc]; rfl]
      rw [hgen]
      rw [show extractProp st ("DRILL_LAST_QUALITY".data) (intReprL n) =
          (match parseIntL (intReprL n) with
           | some m => StepRes.cont { st with dlq := some m }
           | none => StepRes.stop (.error .valueErr)) from rfl]
      rw [parseIntL_intReprL]
      rfl

/-! Part Q: the loop over a rendered block, and the last-occurrence value
of each field. -/

theorem extractGo_cons_cont {st st2 : PState} {l : List Char}
    (h : extractLine st l = .cont st2) (ls : List (List Char)) :
    extractGo st (l :: ls) = extractGo st2 ls := by
  show (match extractLine st l with
        | .cont s => extractGo s ls
        | .stop r => r) = _
  rw [h]

theorem extractGo_skip_props (st : PState) (ls : List (List Char)) :
    extractGo st ("    :PROPERTIES:\n".data :: ls) = extractGo st ls :=
  extractGo_cons_cont
    (show extractLine st "    :PROPERTIES:\n".data = .cont st from rfl) ls

theorem extractGo_end_line (st : PState) (ls : List (List Char)) :
    extractGo st ("    :END:\n".data :: ls) = finalizeP st := by
  show (match extractLine st "    :END:\n".data with
        | .cont s => extractGo s ls
        | .stop r => r) = _
  rw [show extractLine st "    :END:\n".data = .stop (finalizeP st) from rfl]

theorem extractGo_evs (evs : List PropEv) (hv : ∀ e ∈ evs, validEv e) :
    ∀ (st : PState) (tail : List (List Char)),
      extractGo st (evs.map renderEv ++ tail) = extractGo (evs.foldl applyEv st) tail := by
  induction evs with
  | nil => intro st tail; rfl
  | cons e es ih =>
      intro st tail
      rw [List.map_cons, List.cons_append,
        extractGo_cons_cont (extractLine_ev st e (hv e (List.mem_cons_self e es))),
        ih (fun x hx => hv x (List.mem_cons_of_mem _ hx)) (applyEv st e) tail]
      rfl

theorem getLast?_cons_or {α : Type} (a : α) (l : List α) :
    (a :: l).getLast? = l.getLast?.or (some a) := by
  induction l generalizing a with
  | nil => rfl
  | cons b t ih =>
      rw [List.getLast?_cons_cons, ih, Option.or_assoc]
      rfl

theorem foldl_lastVal {α : Type} (f : PState → Option α) (g : PropEv → Option α)
    (hcompat : ∀ st e, f (applyEv st e) = (g e).or (f st)) :
    ∀ (evs : List PropEv) (st : PState),
      f (evs.foldl applyEv st) = (lastVal g evs).or (f st) := by
  intro evs
  induction evs with
  | nil => intro st; rfl
  | cons e es ih =>
      intro st
      show f (es.foldl applyEv (applyEv st e)) = _
      rw [ih (applyEv st e), hcompat st e, ← Option.or_assoc]
      congr 1
      show (lastVal g es).or (g e) = (List.filterMap g (e :: es)).getLast?
      rw [List.filterMap_cons]
      cases hge : g e with
      | none =>
          rw [Option.or_none]
          rfl
      | some a =>
          rw [getLast?_cons_or]
          rfl

/-- C2 counterexample: a Properties value whose ID field carries a leading
space.  The write/parse round trip strips the value, so decoding returns
the ID without the space and the round trip is not the identity. -/
theorem props_round_trip_cex :
    decodeProps (encodeProps ⟨"<2024-01-01 Mon>", " x", ⟨false, 1, ['0']⟩, 3, 10, 2,
        ⟨false, 4, ['0']⟩, ⟨false, 2, ['5']⟩, 5, "sometime"⟩) =
      .ok ⟨"<2024-01-01 Mon>", "x", ⟨false, 1, ['0']⟩, 3, 10, 2,
        ⟨false, 4, ['0']⟩, ⟨false, 2, ['5']⟩, 5, "sometime"⟩ ∧
    (⟨"<2024-01-01 Mon>", " x", ⟨false, 1, ['0']⟩, 3, 10, 2,
        ⟨false, 4, ['0']⟩, ⟨false, 2, ['5']⟩, 5, "sometime"⟩ : Properties) ≠
      ⟨"<2024-01-01 Mon>", "x", ⟨false, 1, ['0']⟩, 3, 10, 2,
        ⟨false, 4, ['0']⟩, ⟨false, 2, ['5']⟩, 5, "sometime"⟩ := by
  constructor
  · rfl
  · decide

/-- C2 amended: the round trip decode(encode(p)) = p holds for every
complete Properties value whose string fields survive the write/strip/
regex path (nonempty, strip-invariant, in the value character class,
newline-free; the SCHEDULED field only nonempty, strip-invariant and
newline-free) and whose float fields carry a genuine digit string after
the point. -/
theorem props_round_trip (p : Properties)
    (h1 : ValidSchedVal p.SCHEDULED.data) (h2 : ValidStrVal p.ID.data)
    (h3 : ValidStrVal p.DRILL_LAST_REVIEWED.data)
    (h4 : FracOK p.DRILL_LAST_INTERVAL) (h5 : FracOK p.DRILL_AVERAGE_QUALITY)
    (h6 : FracOK p.DRILL_EASE) :
    decodeProps (encodeProps p) = .ok p := by
  obtain ⟨s, i, a, b, c, d, e, f, g, h⟩ := p
  have hmap : (encodeProps ⟨s, i, a, b, c, d, e, f, g, h⟩).map String.data =
      renderEv (.evSched s.data) :: "    :PROPERTIES:\n".data ::
        ([PropEv.evID i.data, PropEv.evDLI a, PropEv.evDRSF b, PropEv.evDTR c,
          PropEv.evDFC d, PropEv.evDAQ e, PropEv.evDE f, PropEv.evDLQ g,
          PropEv.evDLR h.data].map renderEv ++ ["    :END:\n".data]) := rfl
  have hev : ∀ ev ∈ [PropEv.evID i.data, PropEv.evDLI a, PropEv.evDRSF b, PropEv.evDTR c,
      PropEv.evDFC d, PropEv.evDAQ e, PropEv.evDE f, PropEv.evDLQ g,
      PropEv.evDLR h.data], validEv ev := by
    intro ev hev
    simp only [List.mem_cons, List.not_mem_nil, or_false] at hev
    rcases hev with rfl | rfl | rfl | rfl | rfl | rfl | rfl | rfl | rfl
    · exact h2
    · exact h4
    · trivial
    · trivial
    · trivial
    · exact h5
    · exact h6
    · trivial
    · exact h3
  show extractGo {} ((encodeProps ⟨s, i, a, b, c, d, e, f, g, h⟩).map String.data) = _
  rw [hmap, extractGo_cons_cont (extractLine_ev {} (.evSched s.data) h1),
    extractGo_skip_props,
    extractGo_evs _ hev _ _,
    extractGo_end_line]
  rfl

/-- C2 witness: a complete flashcard metadata value with plain field
values; its block decodes back to itself. -/
theorem props_round_trip_witness :
    ValidSchedVal ("<2024-01-01 Mon>" : String).data ∧
    ValidStrVal ("abc-123" : String).data ∧
    ValidStrVal ("[2024-01-01 Mon 10:00]" : String).data ∧
    FracOK ⟨false, 7, ['5']⟩ ∧ FracOK ⟨false, 4, ['2', '5']⟩ ∧ FracOK ⟨false, 2, ['8']⟩ ∧
    decodeProps (encodeProps ⟨"<2024-01-01 Mon>", "abc-123", ⟨false, 7, ['5']⟩, 3, 10, 2,
        ⟨false, 4, ['2', '5']⟩, ⟨false, 2, ['8']⟩, 5, "[2024-01-01 Mon 10:00]"⟩) =
      .ok ⟨"<2024-01-01 Mon>", "abc-123", ⟨false, 7, ['5']⟩, 3, 10, 2,
        ⟨false, 4, ['2', '5']⟩, ⟨false, 2, ['8']⟩, 5, "[2024-01-01 Mon 10:00]"⟩ :=
  ⟨by unfold ValidSchedVal; decide, by unfold ValidStrVal; decide,
    by unfold ValidStrVal; decide, by unfold FracOK; decide, by unfold FracOK; decide,
    by unfold FracOK; decide,
    props_round_trip _ (by unfold ValidSchedVal; decide) (by unfold ValidStrVal; decide)
      (by unfold ValidStrVal; decide) (by unfold FracOK; decide) (by unfold FracOK; decide)
      (by unfold FracOK; decide)⟩

/-- C10: a property block whose lines are any sequence of well-formed
SCHEDULED / property lines (in any order, with any fields repeated any
number of times), closed by :END:, is accepted by extract_properties
without error, and the returned Properties carries for each field the
value of its last occurrence. -/
theorem props_last_occurrence (evs : List PropEv) (hv : ∀ e ∈ evs, validEv e)
    (vs vi : List Char) (xa : PyFloat) (nb nc nd : Int) (xe xf : PyFloat) (ng : Int)
    (vh : List Char)
    (l1 : lastVal getSched evs = some vs) (l2 : lastVal getID evs = some vi)
    (l3 : lastVal getDLI evs = some xa) (l4 : lastVal getDRSF evs = some nb)
    (l5 : lastVal getDTR evs = some nc) (l6 : lastVal getDFC evs = some nd)
    (l7 : lastVal getDAQ evs = some xe) (l8 : lastVal getDE evs = some xf)
    (l9 : lastVal getDLQ evs = some ng) (l10 : lastVal getDLR evs = some vh) :
    decodeProps ("    :PROPERTIES:\n" ::
        evs.map (fun e => String.mk (renderEv e)) ++ ["    :END:\n"]) =
      .ok ⟨String.mk vs, String.mk vi, xa, nb, nc, nd, xe, xf, ng, String.mk vh⟩ := by
  have hmap : (("    :PROPERTIES:\n" ::
      evs.map (fun e => String.mk (renderEv e)) ++ ["    :END:\n"]).map String.data) =
      "    :PROPERTIES:\n".data :: (evs.map renderEv ++ ["    :END:\n".data]) := by
    rw [List.map_append, List.map_cons, List.map_map]
    rfl
  show extractGo {} _ = _
  rw [hmap, extractGo_skip_props, extractGo_evs _ hv _ _, extractGo_end_line]
  have hsched : (evs.foldl applyEv {}).sched = some vs := by
    rw [foldl_lastVal PState.sched getSched (fun st e => by cases e <;> rfl) evs {}, l1]
    rfl
  have hid : (evs.foldl applyEv {}).idv = some vi := by
    rw [foldl_lastVal PState.idv getID (fun st e => by cases e <;> rfl) evs {}, l2]
    rfl
  have hdli : (evs.foldl applyEv {}).dli = some xa := by
    rw [foldl_lastVal PState.dli getDLI (fun st e => by cases e <;> rfl) evs {}, l3]
    rfl
  have hdrsf : (evs.foldl applyEv {}).drsf = some nb := by
    rw [foldl_lastVal PState.drsf getDRSF (fun st e => by cases e <;> rfl) evs {}, l4]
    rfl
  have hdtr : (evs.foldl applyEv {}).dtr = some nc := by
    rw [foldl_lastVal PState.dtr getDTR (fun st e => by cases e <;> rfl) evs {}, l5]
    rfl
  have hdfc : (evs.foldl applyEv {}).dfc = some nd := by
    rw [foldl_lastVal PState.dfc getDFC (fun st e => by cases e <;> rfl) evs {}, l6]
    rfl
  have hdaq : (evs.foldl applyEv {}).daq = some xe := by
    rw [foldl_lastVal PState.daq getDAQ (fun st e => by cases e <;> rfl) evs {}, l7]
    rfl
  have hde : (evs.foldl applyEv {}).de = some xf := by
    rw [foldl_lastVal PState.de getDE (fun st e => by cases e <;> rfl) evs {}, l8]
    rfl
  have hdlq : (evs.foldl applyEv {}).dlq = some ng := by
    rw [foldl_lastVal PState.dlq getDLQ (fun st e => by cases e <;> rfl) evs {}, l9]
    rfl
  have hdlr : (evs.foldl applyEv {}).dlr = some vh := by
    rw [foldl_lastVal PState.dlr getDLR (fun st e => by cases e <;> rfl) evs {}, l10]
    rfl
  have hstate : (evs.foldl applyEv {} : PState) =
      ⟨some vs, some vi, some xa, some nb, some nc, some nd, some xe, some xf, some ng,
        some vh⟩ := by
    rw [show (evs.foldl applyEv {} : PState) =
      ⟨(evs.foldl applyEv {}).sched, (evs.foldl applyEv {}).idv, (evs.foldl applyEv {}).dli,
        (evs.foldl applyEv {}).drsf, (evs.foldl applyEv {}).dtr, (evs.foldl applyEv {}).dfc,
        (evs.foldl applyEv {}).daq, (evs.foldl applyEv {}).de, (evs.foldl applyEv {}).dlq,
        (evs.foldl applyEv {}).dlr⟩ from rfl,
      hsched, hid, hdli, hdrsf, hdtr, hdfc, hdaq, hde, hdlq, hdlr]
  rw [hstate]
  rfl

/-- C10 witness: a block that repeats the ID line (values a then b) and
the SCHEDULED line (dates d1 then d2) around the other eight fields; the
decoded Properties carries the later value of each repeated field. -/
theorem props_last_occurrence_witness :
    (∀ e ∈ [PropEv.evID "a".data, PropEv.evSched "<d1>".data, PropEv.evDLI ⟨false, 1, ['0']⟩,
        PropEv.evDRSF 3, PropEv.evDTR 10, PropEv.evDFC 2, PropEv.evDAQ ⟨false, 4, ['0']⟩,
        PropEv.evDE ⟨false, 2, ['5']⟩, PropEv.evDLQ 5, PropEv.evDLR "t1".data,
        PropEv.evID "b".data, PropEv.evSched "<d2>".data], validEv e) ∧
    lastVal getID [PropEv.evID "a".data, PropEv.evSched "<d1>".data,
        PropEv.evDLI ⟨false, 1, ['0']⟩, PropEv.evDRSF 3, PropEv.evDTR 10, PropEv.evDFC 2,
        PropEv.evDAQ ⟨false, 4, ['0']⟩, PropEv.evDE ⟨false, 2, ['5']⟩, PropEv.evDLQ 5,
        PropEv.evDLR "t1".data, PropEv.evID "b".data,
        PropEv.evSched "<d2>".data] = some "b".data ∧
    decodeProps ("    :PROPERTIES:\n" ::
        [PropEv.evID "a".data, PropEv.evSched "<d1>".data, PropEv.evDLI ⟨false, 1, ['0']⟩,
          PropEv.evDRSF 3, PropEv.evDTR 10, PropEv.evDFC 2, PropEv.evDAQ ⟨false, 4, ['0']⟩,
          PropEv.evDE ⟨false, 2, ['5']⟩, PropEv.evDLQ 5, PropEv.evDLR "t1".data,
          PropEv.evID "b".data, PropEv.evSched "<d2>".data].map
            (fun e => String.mk (renderEv e)) ++ ["    :END:\n"]) =
      .ok ⟨String.mk "<d2>".data, String.mk "b".data, ⟨false, 1, ['0']⟩, 3, 10, 2,
        ⟨false, 4, ['0']⟩, ⟨false, 2, ['5']⟩, 5, String.mk "t1".data⟩ := by
  refine ⟨?_, ?_, ?_⟩
  · intro e he
    simp only [List.mem_cons, List.not_mem_nil, or_false] at he
    rcases he with rfl | rfl | rfl | rfl | rfl | rfl | rfl | rfl | rfl | rfl | rfl | rfl <;>
      first
        | trivial
        | (unfold validEv ValidStrVal; decide)
        | (unfold validEv ValidSchedVal; decide)
        | (unfold validEv FracOK; decide)
  · rfl
  · exact props_last_occurrence _
      (by
        intro e he
        simp only [List.mem_cons, List.not_mem_nil, or_false] at he
        rcases he with rfl | rfl | rfl | rfl | rfl | rfl | rfl | rfl | rfl | rfl | rfl | rfl <;>
          first
            | trivial
            | (unfold validEv ValidStrVal; decide)
            | (unfold validEv ValidSchedVal; decide)
            | (unfold validEv FracOK; decide))
      "<d2>".data "b".data ⟨false, 1, ['0']⟩ 3 10 2 ⟨false, 4, ['0']⟩ ⟨false, 2, ['5']⟩ 5
      "t1".data rfl rfl rfl rfl rfl rfl rfl rfl rfl rfl
